import Mathlib

/-!
Verification development for the `orderbook` Go repository.

The embedding models prices and amounts as exact rationals (the spec's
"positive real" abstraction of the source's float64), order ids and sides as
strings (Go's `Side` is a string type with constants "BUY"/"SELL"), and each
book operation of the first (current) variant of the package as a pure
function from book state to book state plus an optional error value.
-/

namespace Orderbook

/-- Go constant `Buy Side = "BUY"`. -/
def Buy : String := "BUY"

/-- Go constant `Sell Side = "SELL"`. -/
def Sell : String := "SELL"

/-- Embedding of the Go `Order` struct: id, price, amount, side. -/
structure Order where
  id : String
  price : Rat
  amount : Rat
  side : String
  deriving Repr, DecidableEq, Inhabited

/-- Embedding of the Go `Trade` struct. -/
structure Trade where
  buyOrderID : String
  sellOrderID : String
  price : Rat
  amount : Rat
  deriving Repr, DecidableEq, Inhabited

/-- The package's error values (`ErrNoOrders`, `ErrOrderNotFound`,
`ErrInvalidModification`, `ErrInvalidOrder`). -/
inductive OBError where
  | noOrders
  | orderNotFound
  | invalidModification
  | invalidOrder
  deriving Repr, DecidableEq

/-- Embedding of the Go `OrderBook`: the two resident-order sequences.
The mutex, tag and id fields carry no sequential behaviour and are omitted;
the lock discipline is modelled separately as an event trace. -/
structure OrderBook where
  bids : List Order
  asks : List Order
  deriving Repr, DecidableEq, Inhabited

/-- Embedding of `NewOrderBook`: the empty book. -/
def NewOrderBook : OrderBook := { bids := [], asks := [] }

/-- Embedding of the loop of Go's `sort.Search` (binary search for the least
index where `f` holds, assuming `f` is monotone on the searched range):
`i, j := 0, n; for i < j { h := (i+j)/2; if !f(h) { i = h+1 } else { j = h } }`.
The `fuel` argument makes the recursion structural; `j - i` shrinks at every
iteration, so any `fuel ≥ j - i` (the call site passes `n`) yields the exact
loop result. -/
def goSearchLoop (f : Nat → Bool) : Nat → Nat → Nat → Nat
  | 0, i, _ => i
  | fuel + 1, i, j =>
    if i < j then
      let m := (i + j) / 2
      if f m then goSearchLoop f fuel i m else goSearchLoop f fuel (m + 1) j
    else i

/-- Embedding of Go's `sort.Search(n, f)`. -/
def goSearch (n : Nat) (f : Nat → Bool) : Nat := goSearchLoop f n 0 n

/-- Embedding of the first variant's `insertSorted`: finds the insertion
index with `sort.Search` (predicate: price strictly worse than the new
order's, `>` for ascending and `<` for descending), then inserts the order at
that index (the source's append-dummy/shift/assign sequence on a slice).
`getD` with the zero-value order models Go's slice indexing; `sort.Search`
only evaluates the predicate at indices below `n`, so the default is never
consulted. -/
def insertSorted (orders : List Order) (order : Order) (ascending : Bool) : List Order :=
  let f : Nat → Bool := fun k =>
    if ascending then decide ((orders.getD k default).price > order.price)
    else decide ((orders.getD k default).price < order.price)
  let i := goSearch orders.length f
  orders.take i ++ order :: orders.drop i

/-- Embedding of the `for i, order := range` search loops of `CancelOrder`
and `ModifyOrder`: index and value of the first order with the given id. -/
def findOrder (orderID : String) : List Order → Option (Nat × Order)
  | [] => none
  | o :: rest =>
    if o.id = orderID then some (0, o)
    else (findOrder orderID rest).map (fun p => (p.1 + 1, p.2))

/-- Embedding of `OrderBook.PlaceOrder` (first variant): reject non-positive
price or amount with `ErrInvalidOrder`; otherwise insert on the side's
sequence (descending for bids, ascending for asks). The side switch has no
default case, so an unrecognized side inserts nothing and returns nil. -/
def OrderBook.PlaceOrder (ob : OrderBook) (order : Order) : OrderBook × Option OBError :=
  if order.price ≤ 0 ∨ order.amount ≤ 0 then (ob, some .invalidOrder)
  else if order.side = Buy then
    ({ ob with bids := insertSorted ob.bids order false }, none)
  else if order.side = Sell then
    ({ ob with asks := insertSorted ob.asks order true }, none)
  else (ob, none)

/-- Embedding of `OrderBook.CancelOrder`: remove the first id match from
bids, else from asks, else `ErrOrderNotFound`. -/
def OrderBook.CancelOrder (ob : OrderBook) (orderID : String) : OrderBook × Option OBError :=
  match findOrder orderID ob.bids with
  | some (i, _) => ({ ob with bids := ob.bids.eraseIdx i }, none)
  | none =>
    match findOrder orderID ob.asks with
    | some (i, _) => ({ ob with asks := ob.asks.eraseIdx i }, none)
    | none => (ob, some .orderNotFound)

/-- Embedding of `OrderBook.ModifyOrder`: validate the new values first
(before any search or mutation); then search bids, then asks, for the id.
On a hit with unchanged price, update the amount in place; on a price
change, remove the order and re-insert it with `insertSorted`. -/
def OrderBook.ModifyOrder (ob : OrderBook) (orderID : String)
    (newPrice newAmount : Rat) : OrderBook × Option OBError :=
  if newPrice ≤ 0 ∨ newAmount ≤ 0 then (ob, some .invalidModification)
  else
    match findOrder orderID ob.bids with
    | some (i, o) =>
      if newPrice = o.price then
        ({ ob with bids := ob.bids.set i { o with amount := newAmount } }, none)
      else
        let o' : Order := { o with price := newPrice, amount := newAmount }
        ({ ob with bids := insertSorted (ob.bids.eraseIdx i) o' false }, none)
    | none =>
      match findOrder orderID ob.asks with
      | some (i, o) =>
        if newPrice = o.price then
          ({ ob with asks := ob.asks.set i { o with amount := newAmount } }, none)
        else
          let o' : Order := { o with price := newPrice, amount := newAmount }
          ({ ob with asks := insertSorted (ob.asks.eraseIdx i) o' true }, none)
      | none => (ob, some .orderNotFound)

/-- Embedding of `isPriceMatching`: a Buy matches when the resting price is
at most the incoming price, a Sell when it is at least; any other side value
falls through the switch to `false`. -/
def isPriceMatching (order matchOrder : Order) : Bool :=
  if order.side = Buy then decide (matchOrder.price ≤ order.price)
  else if order.side = Sell then decide (order.price ≤ matchOrder.price)
  else false

/-- Embedding of `createTrade`: trade at the resting (`matchOrder`) price
with the executed amount; ids tagged by the incoming order's side (the
switch's default leaves Go's zero-value empty strings). -/
def createTrade (order matchOrder : Order) (executedAmount : Rat) : Trade :=
  let base : Trade :=
    { buyOrderID := "", sellOrderID := "", price := matchOrder.price, amount := executedAmount }
  if order.side = Buy then
    { base with buyOrderID := order.id, sellOrderID := matchOrder.id }
  else if order.side = Sell then
    { base with buyOrderID := matchOrder.id, sellOrderID := order.id }
  else base

/-- Embedding of the matching loop of `ProcessOrder`: while the opposing
sequence is non-empty and the remaining amount is positive, trade against
the head if the prices match, else break. Returns the trades, the final
remaining amount and the opposing sequence left behind. In the
partial-consumption branch the resting head keeps a positive amount, which
forces `executed = remaining` (the minimum must be one of its arguments),
so the next loop-condition check `remaining > 0` fails and the loop exits;
the branch therefore returns directly, matching the loop's behaviour. -/
def matchLoop (order : Order) (remaining : Rat) : List Order → List Trade × Rat × List Order
  | [] => ([], remaining, [])
  | best :: rest =>
    if ¬ 0 < remaining then ([], remaining, best :: rest)
    else if ¬ isPriceMatching order best then ([], remaining, best :: rest)
    else
      let executed := min remaining best.amount
      let trade := createTrade order best executed
      if best.amount - executed = 0 then
        let r := matchLoop order (remaining - executed) rest
        (trade :: r.1, r.2.1, r.2.2)
      else
        ([trade], remaining - executed, { best with amount := best.amount - executed } :: rest)

/-- Embedding of `OrderBook.ProcessOrder` (first variant): select the
opposing side by the incoming side (default: `ErrInvalidOrder` with nil
trades), run the matching loop, and if a positive amount remains deposit it
through `PlaceOrder` with the original id and price. -/
def OrderBook.ProcessOrder (ob : OrderBook) (order : Order) :
    List Trade × OrderBook × Option OBError :=
  if order.side = Buy then
    let r := matchLoop order order.amount ob.asks
    let ob' : OrderBook := { ob with asks := r.2.2 }
    if 0 < r.2.1 then
      let p := ob'.PlaceOrder
        { id := order.id, price := order.price, amount := r.2.1, side := order.side }
      (r.1, p.1, p.2)
    else (r.1, ob', none)
  else if order.side = Sell then
    let r := matchLoop order order.amount ob.bids
    let ob' : OrderBook := { ob with bids := r.2.2 }
    if 0 < r.2.1 then
      let p := ob'.PlaceOrder
        { id := order.id, price := order.price, amount := r.2.1, side := order.side }
      (r.1, p.1, p.2)
    else (r.1, ob', none)
  else ([], ob, some .invalidOrder)

/-- The asks sequence is ordered by non-decreasing price. -/
def asksSorted (l : List Order) : Prop := l.Pairwise (fun a b => a.price ≤ b.price)

/-- The bids sequence is ordered by non-increasing price. -/
def bidsSorted (l : List Order) : Prop := l.Pairwise (fun a b => b.price ≤ a.price)

/-- Total resident amount of a sequence of orders. -/
def amountSum (l : List Order) : Rat := (l.map (·.amount)).sum

theorem goSearchLoop_spec (f : Nat → Bool) (n : Nat)
    (hmono : ∀ a b, a ≤ b → b < n → f a = true → f b = true) :
    ∀ fuel i j, j - i ≤ fuel → i ≤ j → j ≤ n →
      i ≤ goSearchLoop f fuel i j ∧ goSearchLoop f fuel i j ≤ j ∧
      (∀ k, k < goSearchLoop f fuel i j → i ≤ k → f k = false) ∧
      (∀ k, goSearchLoop f fuel i j ≤ k → k < j → f k = true) := by
  intro fuel
  induction fuel with
  | zero =>
    intro i j hfuel hij _
    have hji : j = i := by omega
    subst hji
    refine ⟨le_refl _, le_refl _, ?_, ?_⟩ <;> (intro k h1 h2; simp [goSearchLoop] at h1 h2; omega)
  | succ fuel ih =>
    intro i j hfuel hij hjn
    by_cases hlt : i < j
    · have hm1 : i ≤ (i + j) / 2 := by omega
      have hm2 : (i + j) / 2 < j := by omega
      by_cases hf : f ((i + j) / 2) = true
      · have hrec := ih i ((i + j) / 2) (by omega) hm1 (by omega)
        obtain ⟨h1, h2, h3, h4⟩ := hrec
        have hres : goSearchLoop f (fuel + 1) i j = goSearchLoop f fuel i ((i + j) / 2) := by
          simp [goSearchLoop, hlt, hf]
        rw [hres]
        refine ⟨h1, by omega, h3, ?_⟩
        intro k hk1 hk2
        by_cases hkm : k < (i + j) / 2
        · exact h4 k hk1 hkm
        · exact hmono ((i + j) / 2) k (by omega) (by omega) hf
      · have hfm : f ((i + j) / 2) = false := by
          cases hb : f ((i + j) / 2) with
          | true => exact absurd hb hf
          | false => rfl
        have hrec := ih ((i + j) / 2 + 1) j (by omega) (by omega) hjn
        obtain ⟨h1, h2, h3, h4⟩ := hrec
        have hres : goSearchLoop f (fuel + 1) i j = goSearchLoop f fuel ((i + j) / 2 + 1) j := by
          simp [goSearchLoop, hlt, hfm]
        rw [hres]
        refine ⟨by omega, h2, ?_, h4⟩
        intro k hk1 hk2
        by_cases hkm : (i + j) / 2 + 1 ≤ k
        · exact h3 k hk1 hkm
        · cases hb : f k with
          | false => rfl
          | true =>
            exact absurd (hmono k ((i + j) / 2) (by omega) (by omega) hb) hf
    · have hji : j = i := by omega
      subst hji
      refine ⟨?_, ?_, ?_, ?_⟩ <;> simp [goSearchLoop, hlt] <;> omega

theorem goSearch_spec (n : Nat) (f : Nat → Bool)
    (hmono : ∀ a b, a ≤ b → b < n → f a = true → f b = true) :
    goSearch n f ≤ n ∧ (∀ k, k < goSearch n f → f k = false) ∧
      (∀ k, goSearch n f ≤ k → k < n → f k = true) := by
  have h := goSearchLoop_spec f n hmono n 0 n (by omega) (by omega) (le_refl _)
  exact ⟨h.2.1, fun k hk => h.2.2.1 k hk (Nat.zero_le k), h.2.2.2⟩

theorem firstIdx_unique (n : Nat) (f : Nat → Bool) (r1 r2 : Nat)
    (hr1 : r1 ≤ n) (hr2 : r2 ≤ n)
    (hf1 : ∀ k, k < r1 → f k = false) (ht1 : ∀ k, r1 ≤ k → k < n → f k = true)
    (hf2 : ∀ k, k < r2 → f k = false) (ht2 : ∀ k, r2 ≤ k → k < n → f k = true) :
    r1 = r2 := by
  rcases lt_trichotomy r1 r2 with h | h | h
  · have := hf2 r1 h
    have := ht1 r1 (le_refl _) (by omega)
    simp_all
  · exact h
  · have := hf1 r2 h
    have := ht2 r2 (le_refl _) (by omega)
    simp_all

theorem take_drop_firstIdx {α : Type} (p : α → Bool) :
    ∀ (l : List α) (r : Nat), (hr : r ≤ l.length) →
      (∀ k, (hk : k < r) → p (l.get ⟨k, by omega⟩) = false) →
      (∀ hrn : r < l.length, p (l.get ⟨r, hrn⟩) = true) →
      l.take r = l.takeWhile (fun x => !p x) ∧ l.drop r = l.dropWhile (fun x => !p x) := by
  intro l
  induction l with
  | nil =>
    intro r hr _ _
    simp at hr
    subst hr
    simp
  | cons x xs ih =>
    intro r hr hfalse htrue
    cases r with
    | zero =>
      have hx : p x = true := htrue (by simp)
      constructor <;> simp [List.takeWhile_cons, List.dropWhile_cons, hx]
    | succ r' =>
      have hx : p x = false := hfalse 0 (Nat.succ_pos r')
      have hrec := ih r' (by simpa using hr)
        (fun k hk => hfalse (k + 1) (by omega))
        (fun hrn => htrue (by simpa using hrn))
      constructor <;>
        simp [List.takeWhile_cons, List.dropWhile_cons, hx, hrec.1, hrec.2]

theorem insertSorted_eq_of_asksSorted (l : List Order) (o : Order) (h : asksSorted l) :
    insertSorted l o true =
      l.takeWhile (fun x => decide (x.price ≤ o.price)) ++
        o :: l.dropWhile (fun x => decide (x.price ≤ o.price)) := by
  have hfun : (fun x : Order => !decide (o.price < x.price)) =
      fun x : Order => decide (x.price ≤ o.price) := by
    funext x
    rw [← decide_not]
    exact decide_eq_decide.mpr not_lt
  set f : Nat → Bool := fun k =>
    if true = true then decide ((l.getD k default).price > o.price)
    else decide ((l.getD k default).price < o.price) with hfdef
  have hdef : insertSorted l o true =
      l.take (goSearch l.length f) ++ o :: l.drop (goSearch l.length f) := by
    rw [hfdef]
    rfl
  have hfeq : ∀ k, (hk : k < l.length) → f k = decide (o.price < (l.get ⟨k, hk⟩).price) := by
    intro k hk
    simp only [hfdef, if_true, gt_iff_lt, List.getD_eq_getElem l default hk]
    rfl
  have hmono : ∀ a b, a ≤ b → b < l.length → f a = true → f b = true := by
    intro a b hab hb hfa
    have ha : a < l.length := lt_of_le_of_lt hab hb
    rw [hfeq a ha] at hfa
    rw [hfeq b hb]
    have hprice : (l.get ⟨a, ha⟩).price ≤ (l.get ⟨b, hb⟩).price := by
      rcases eq_or_lt_of_le hab with rfl | hlt
      · exact le_refl _
      · exact (List.pairwise_iff_get.mp h) ⟨a, ha⟩ ⟨b, hb⟩ hlt
    exact decide_eq_true_eq.mpr (lt_of_lt_of_le (decide_eq_true_eq.mp hfa) hprice)
  obtain ⟨hle, hfalse, htrue⟩ := goSearch_spec l.length f hmono
  have hchar := take_drop_firstIdx (fun x : Order => decide (o.price < x.price)) l
    (goSearch l.length f) hle
    (fun k hk => by
      have hres := hfalse k hk
      rw [hfeq k (by omega)] at hres
      exact hres)
    (fun hrn => by
      have hres := htrue _ (le_refl _) hrn
      rw [hfeq _ hrn] at hres
      exact hres)
  rw [hdef, hchar.1, hchar.2, hfun]

theorem insertSorted_eq_of_bidsSorted (l : List Order) (o : Order) (h : bidsSorted l) :
    insertSorted l o false =
      l.takeWhile (fun x => decide (o.price ≤ x.price)) ++
        o :: l.dropWhile (fun x => decide (o.price ≤ x.price)) := by
  have hfun : (fun x : Order => !decide (x.price < o.price)) =
      fun x : Order => decide (o.price ≤ x.price) := by
    funext x
    rw [← decide_not]
    exact decide_eq_decide.mpr not_lt
  set f : Nat → Bool := fun k =>
    if false = true then decide ((l.getD k default).price > o.price)
    else decide ((l.getD k default).price < o.price) with hfdef
  have hdef : insertSorted l o false =
      l.take (goSearch l.length f) ++ o :: l.drop (goSearch l.length f) := by
    rw [hfdef]
    rfl
  have hfeq : ∀ k, (hk : k < l.length) → f k = decide ((l.get ⟨k, hk⟩).price < o.price) := by
    intro k hk
    simp only [hfdef, List.getD_eq_getElem l default hk]
    rfl
  have hmono : ∀ a b, a ≤ b → b < l.length → f a = true → f b = true := by
    intro a b hab hb hfa
    have ha : a < l.length := lt_of_le_of_lt hab hb
    rw [hfeq a ha] at hfa
    rw [hfeq b hb]
    have hprice : (l.get ⟨b, hb⟩).price ≤ (l.get ⟨a, ha⟩).price := by
      rcases eq_or_lt_of_le hab with rfl | hlt
      · exact le_refl _
      · exact (List.pairwise_iff_get.mp h) ⟨a, ha⟩ ⟨b, hb⟩ hlt
    exact decide_eq_true_eq.mpr (lt_of_le_of_lt hprice (decide_eq_true_eq.mp hfa))
  obtain ⟨hle, hfalse, htrue⟩ := goSearch_spec l.length f hmono
  have hchar := take_drop_firstIdx (fun x : Order => decide (x.price < o.price)) l
    (goSearch l.length f) hle
    (fun k hk => by
      have hres := hfalse k hk
      rw [hfeq k (by omega)] at hres
      exact hres)
    (fun hrn => by
      have hres := htrue _ (le_refl _) hrn
      rw [hfeq _ hrn] at hres
      exact hres)
  rw [hdef, hchar.1, hchar.2, hfun]

theorem asksSorted_takeWhile_middle (o : Order) :
    ∀ l : List Order, asksSorted l →
      asksSorted (l.takeWhile (fun x => decide (x.price ≤ o.price)) ++
        o :: l.dropWhile (fun x => decide (x.price ≤ o.price))) := by
  intro l
  induction l with
  | nil => intro _; simp [asksSorted]
  | cons x xs ih =>
    intro h
    rcases List.pairwise_cons.mp h with ⟨hx, hxs⟩
    by_cases hp : x.price ≤ o.price
    · simp only [List.takeWhile_cons, List.dropWhile_cons, hp, decide_True, if_true,
        List.cons_append]
      rw [asksSorted, List.pairwise_cons]
      refine ⟨?_, ih hxs⟩
      intro y hy
      rcases List.mem_append.mp hy with hy | hy
      · exact hx y ((List.takeWhile_sublist _).subset hy)
      · rcases List.mem_cons.mp hy with rfl | hy
        · exact hp
        · exact hx y ((List.dropWhile_sublist _).subset hy)
    · have hp' : o.price ≤ x.price := le_of_not_le hp
      simp [List.takeWhile_cons, List.dropWhile_cons, hp]
      rw [asksSorted, List.pairwise_cons]
      refine ⟨?_, h⟩
      intro y hy
      rcases List.mem_cons.mp hy with rfl | hy
      · exact hp'
      · exact le_trans hp' (hx y hy)

theorem bidsSorted_takeWhile_middle (o : Order) :
    ∀ l : List Order, bidsSorted l →
      bidsSorted (l.takeWhile (fun x => decide (o.price ≤ x.price)) ++
        o :: l.dropWhile (fun x => decide (o.price ≤ x.price))) := by
  intro l
  induction l with
  | nil => intro _; simp [bidsSorted]
  | cons x xs ih =>
    intro h
    rcases List.pairwise_cons.mp h with ⟨hx, hxs⟩
    by_cases hp : o.price ≤ x.price
    · simp only [List.takeWhile_cons, List.dropWhile_cons, hp, decide_True, if_true,
        List.cons_append]
      rw [bidsSorted, List.pairwise_cons]
      refine ⟨?_, ih hxs⟩
      intro y hy
      rcases List.mem_append.mp hy with hy | hy
      · exact hx y ((List.takeWhile_sublist _).subset hy)
      · rcases List.mem_cons.mp hy with rfl | hy
        · exact hp
        · exact hx y ((List.dropWhile_sublist _).subset hy)
    · have hp' : x.price ≤ o.price := le_of_not_le hp
      simp [List.takeWhile_cons, List.dropWhile_cons, hp]
      rw [bidsSorted, List.pairwise_cons]
      refine ⟨?_, h⟩
      intro y hy
      rcases List.mem_cons.mp hy with rfl | hy
      · exact hp'
      · exact le_trans (hx y hy) hp'

theorem asksSorted_insertSorted (l : List Order) (o : Order) (h : asksSorted l) :
    asksSorted (insertSorted l o true) := by
  rw [insertSorted_eq_of_asksSorted l o h]
  exact asksSorted_takeWhile_middle o l h

theorem bidsSorted_insertSorted (l : List Order) (o : Order) (h : bidsSorted l) :
    bidsSorted (insertSorted l o false) := by
  rw [insertSorted_eq_of_bidsSorted l o h]
  exact bidsSorted_takeWhile_middle o l h

theorem insertSorted_perm (l : List Order) (o : Order) (asc : Bool) :
    List.Perm (insertSorted l o asc) (o :: l) := by
  unfold insertSorted
  have hmid := @List.perm_middle _ o
    (l.take (goSearch l.length (fun k =>
      if asc then decide ((l.getD k default).price > o.price)
      else decide ((l.getD k default).price < o.price))))
    (l.drop (goSearch l.length (fun k =>
      if asc then decide ((l.getD k default).price > o.price)
      else decide ((l.getD k default).price < o.price))))
  rw [List.take_append_drop] at hmid
  exact hmid

theorem amountSum_insertSorted (l : List Order) (o : Order) (asc : Bool) :
    amountSum (insertSorted l o asc) = o.amount + amountSum l := by
  unfold amountSum
  have hperm := (insertSorted_perm l o asc).map (·.amount)
  rw [hperm.sum_eq]
  simp

theorem createTrade_amount (o m : Order) (e : Rat) : (createTrade o m e).amount = e := by
  unfold createTrade
  split_ifs <;> rfl

theorem createTrade_price (o m : Order) (e : Rat) : (createTrade o m e).price = m.price := by
  unfold createTrade
  split_ifs <;> rfl

theorem matchLoop_sum (order : Order) :
    ∀ (l : List Order) (remaining : Rat),
      ((matchLoop order remaining l).1.map (·.amount)).sum =
        remaining - (matchLoop order remaining l).2.1 := by
  intro l
  induction l with
  | nil => intro remaining; simp [matchLoop]
  | cons best rest ih =>
    intro remaining
    by_cases h1 : 0 < remaining
    · by_cases h2 : isPriceMatching order best
      · by_cases h3 : best.amount - min remaining best.amount = 0
        · simp only [matchLoop, h1, h2, h3, not_true_eq_false, if_false, if_true,
            List.map_cons, List.sum_cons, createTrade_amount]
          rw [ih (remaining - min remaining best.amount)]
          ring
        · simp only [matchLoop, h1, h2, h3, not_true_eq_false, if_false,
            List.map_cons, List.map_nil, List.sum_cons, List.sum_nil, createTrade_amount]
          ring
      · simp [matchLoop, h1, h2]
    · simp [matchLoop, h1]

theorem matchLoop_rem_nonneg (order : Order) :
    ∀ (l : List Order) (remaining : Rat), 0 ≤ remaining →
      0 ≤ (matchLoop order remaining l).2.1 := by
  intro l
  induction l with
  | nil => intro remaining h; simpa [matchLoop] using h
  | cons best rest ih =>
    intro remaining h
    by_cases h1 : 0 < remaining
    · by_cases h2 : isPriceMatching order best
      · have hmin : min remaining best.amount ≤ remaining := min_le_left _ _
        by_cases h3 : best.amount - min remaining best.amount = 0
        · simp only [matchLoop, h1, h2, h3, not_true_eq_false, if_false, if_true]
          exact ih (remaining - min remaining best.amount) (by linarith)
        · simp only [matchLoop, h1, h2, h3, not_true_eq_false, if_false]
          linarith
      · simpa [matchLoop, h1, h2] using h
    · simpa [matchLoop, h1] using h

theorem matchLoop_suffix (order : Order) :
    ∀ (l : List Order) (remaining : Rat),
      List.IsSuffix ((matchLoop order remaining l).2.2.map (·.price)) (l.map (·.price)) := by
  intro l
  induction l with
  | nil => intro remaining; simp [matchLoop]
  | cons best rest ih =>
    intro remaining
    by_cases h1 : 0 < remaining
    · by_cases h2 : isPriceMatching order best
      · by_cases h3 : best.amount - min remaining best.amount = 0
        · simp only [matchLoop, h1, h2, h3, not_true_eq_false, if_false, if_true]
          exact (ih (remaining - min remaining best.amount)).trans
            (List.suffix_cons best.price (rest.map (·.price)))
        · simp only [matchLoop, h1, h2, h3, not_true_eq_false, if_false, List.map_cons]
          exact List.suffix_refl _
      · simp only [matchLoop, h1, h2, not_true_eq_false, if_false, not_false_eq_true, if_true]
        exact List.suffix_refl _
    · simp only [matchLoop, h1, not_false_eq_true, if_true]
      exact List.suffix_refl _

theorem matchLoop_partial_exit (remaining a : Rat) (h : a - min remaining a ≠ 0) :
    min remaining a = remaining := by
  rcases min_choice remaining a with hm | hm
  · exact hm
  · exact absurd (by rw [hm]; ring) h

theorem matchLoop_compat (order : Order) :
    ∀ (l : List Order) (remaining : Rat) (i : Nat),
      i < (matchLoop order remaining l).1.length →
      i < l.length ∧ isPriceMatching order (l.getD i default) = true := by
  intro l
  induction l with
  | nil => intro remaining i hi; simp [matchLoop] at hi
  | cons best rest ih =>
    intro remaining i hi
    by_cases h1 : 0 < remaining
    · by_cases h2 : isPriceMatching order best
      · by_cases h3 : best.amount - min remaining best.amount = 0
        · have hunf : (matchLoop order remaining (best :: rest)).1 =
              createTrade order best (min remaining best.amount) ::
                (matchLoop order (remaining - min remaining best.amount) rest).1 := by
            simp [matchLoop, h1, h2, h3]
          rw [hunf] at hi
          simp only [List.length_cons] at hi
          cases i with
          | zero => exact ⟨by simp, by simpa using h2⟩
          | succ i' =>
            obtain ⟨h, hc⟩ := ih (remaining - min remaining best.amount) i' (by omega)
            refine ⟨by simp; omega, ?_⟩
            simpa using hc
        · have hunf : (matchLoop order remaining (best :: rest)).1 =
              [createTrade order best (min remaining best.amount)] := by
            simp [matchLoop, h1, h2, h3]
          rw [hunf] at hi
          simp only [List.length_cons, List.length_nil] at hi
          cases i with
          | zero => exact ⟨by simp, by simpa using h2⟩
          | succ i' => omega
      · simp [matchLoop, h1, h2] at hi
    · simp [matchLoop, h1] at hi

theorem matchLoop_stop (order : Order) :
    ∀ (l : List Order) (remaining : Rat),
      0 < (matchLoop order remaining l).2.1 →
      (matchLoop order remaining l).1.length < l.length →
      isPriceMatching order (l.getD (matchLoop order remaining l).1.length default) = false := by
  intro l
  induction l with
  | nil => intro remaining _ h; simp at h
  | cons best rest ih =>
    intro remaining hrem hlen
    by_cases h1 : 0 < remaining
    · by_cases h2 : isPriceMatching order best
      · by_cases h3 : best.amount - min remaining best.amount = 0
        · have hunf1 : (matchLoop order remaining (best :: rest)).1 =
              createTrade order best (min remaining best.amount) ::
                (matchLoop order (remaining - min remaining best.amount) rest).1 := by
            simp [matchLoop, h1, h2, h3]
          have hunf2 : (matchLoop order remaining (best :: rest)).2.1 =
              (matchLoop order (remaining - min remaining best.amount) rest).2.1 := by
            simp [matchLoop, h1, h2, h3]
          rw [hunf2] at hrem
          rw [hunf1] at hlen ⊢
          simp only [List.length_cons] at hlen ⊢
          rw [List.getD_cons_succ]
          exact ih _ hrem (by omega)
        · exfalso
          have hmin := matchLoop_partial_exit remaining best.amount h3
          have hunf2 : (matchLoop order remaining (best :: rest)).2.1 =
              remaining - min remaining best.amount := by
            simp [matchLoop, h1, h2, h3]
          rw [hunf2, hmin] at hrem
          simp at hrem
      · have hunf1 : (matchLoop order remaining (best :: rest)).1 = [] := by
          simp [matchLoop, h1, h2]
        rw [hunf1]
        simp only [List.length_nil, List.getD_cons_zero]
        cases hb : isPriceMatching order best with
        | true => exact absurd hb h2
        | false => rfl
    · have hunf2 : (matchLoop order remaining (best :: rest)).2.1 = remaining := by
        simp [matchLoop, h1]
      rw [hunf2] at hrem
      exact absurd hrem h1

theorem matchLoop_head_iff (order best : Order) (rest : List Order) (remaining : Rat)
    (h : 0 < remaining) :
    (matchLoop order remaining (best :: rest)).1 ≠ [] ↔ isPriceMatching order best = true := by
  by_cases h2 : isPriceMatching order best
  · by_cases h3 : best.amount - min remaining best.amount = 0
    · simp [matchLoop, h, h2, h3]
    · simp [matchLoop, h, h2, h3]
  · have hunf : (matchLoop order remaining (best :: rest)).1 = [] := by
      simp [matchLoop, h, h2]
    rw [hunf]
    exact iff_of_false (fun hc => hc rfl) h2

theorem matchLoop_trades (order : Order) :
    ∀ (l : List Order) (remaining : Rat) (i : Nat),
      i < (matchLoop order remaining l).1.length →
      i < l.length ∧
        (matchLoop order remaining l).1.getD i default =
          createTrade order (l.getD i default)
            (min (remaining - (((matchLoop order remaining l).1.take i).map (·.amount)).sum)
              ((l.getD i default).amount)) := by
  intro l
  induction l with
  | nil => intro remaining i hi; simp [matchLoop] at hi
  | cons best rest ih =>
    intro remaining i hi
    by_cases h1 : 0 < remaining
    · by_cases h2 : isPriceMatching order best
      · by_cases h3 : best.amount - min remaining best.amount = 0
        · have hunf : (matchLoop order remaining (best :: rest)).1 =
              createTrade order best (min remaining best.amount) ::
                (matchLoop order (remaining - min remaining best.amount) rest).1 := by
            simp [matchLoop, h1, h2, h3]
          rw [hunf] at hi
          simp only [List.length_cons] at hi
          cases i with
          | zero =>
            refine ⟨by simp, ?_⟩
            rw [hunf]
            simp
          | succ i' =>
            obtain ⟨h, heq⟩ := ih (remaining - min remaining best.amount) i' (by omega)
            refine ⟨by simp; omega, ?_⟩
            rw [hunf]
            simp only [List.getD_cons_succ, List.take_succ_cons, List.map_cons,
              List.sum_cons, createTrade_amount]
            rw [heq]
            have harith : remaining - min remaining best.amount -
                ((List.map (fun x => x.amount)
                  (List.take i' (matchLoop order (remaining - min remaining best.amount) rest).1))).sum =
                remaining - (min remaining best.amount +
                  ((List.map (fun x => x.amount)
                    (List.take i' (matchLoop order (remaining - min remaining best.amount) rest).1))).sum) := by
              ring
            rw [harith]
        · have hunf : (matchLoop order remaining (best :: rest)).1 =
              [createTrade order best (min remaining best.amount)] := by
            simp [matchLoop, h1, h2, h3]
          rw [hunf] at hi
          simp only [List.length_cons, List.length_nil] at hi
          cases i with
          | zero =>
            refine ⟨by simp, ?_⟩
            rw [hunf]
            simp
          | succ i' => omega
      · simp [matchLoop, h1, h2] at hi
    · simp [matchLoop, h1] at hi

theorem findOrder_some (orderID : String) :
    ∀ (l : List Order) (i : Nat) (o : Order), findOrder orderID l = some (i, o) →
      ∃ h : i < l.length, l.get ⟨i, h⟩ = o := by
  intro l
  induction l with
  | nil => intro i o h; simp [findOrder] at h
  | cons x rest ih =>
    intro i o h
    by_cases hx : x.id = orderID
    · simp only [findOrder, hx, if_true, Option.some.injEq, Prod.mk.injEq] at h
      obtain ⟨rfl, rfl⟩ := h
      exact ⟨by simp, rfl⟩
    · simp only [findOrder, hx, if_false] at h
      cases hr : findOrder orderID rest with
      | none => rw [hr] at h; simp at h
      | some p =>
        rw [hr] at h
        have h' : (p.1 + 1, p.2) = (i, o) := by simpa using h
        obtain ⟨hlt, hget⟩ := ih p.1 p.2 (by rw [hr])
        have hi : p.1 + 1 = i := by
          have hfst := congrArg Prod.fst h'
          simpa using hfst
        have ho : p.2 = o := by
          have hsnd := congrArg Prod.snd h'
          simpa using hsnd
        subst hi
        subst ho
        refine ⟨by simp only [List.length_cons]; omega, ?_⟩
        simpa using hget

theorem set_get_self {α : Type} : ∀ (l : List α) (i : Nat) (h : i < l.length),
    l.set i (l.get ⟨i, h⟩) = l := by
  intro l
  induction l with
  | nil => intro i h; simp at h
  | cons x xs ih =>
    intro i h
    cases i with
    | zero => rfl
    | succ i' =>
      simp only [List.set_cons_succ, List.get_cons_succ]
      rw [ih]

theorem bidsSorted_map (l : List Order) :
    bidsSorted l ↔ (l.map (·.price)).Pairwise (fun a b => b ≤ a) :=
  Iff.symm List.pairwise_map

theorem asksSorted_map (l : List Order) :
    asksSorted l ↔ (l.map (·.price)).Pairwise (fun a b => a ≤ b) :=
  Iff.symm List.pairwise_map

theorem bidsSorted_set_amount (l : List Order) (i : Nat) (o : Order) (a : Rat)
    (h : i < l.length) (hget : l.get ⟨i, h⟩ = o) (hs : bidsSorted l) :
    bidsSorted (l.set i ({ o with amount := a })) := by
  have hmap : (l.set i ({ o with amount := a })).map (·.price) = l.map (·.price) := by
    rw [List.map_set]
    have hpo : o.price = (l.map (·.price)).get ⟨i, by simpa using h⟩ := by
      simp [← hget]
    show (l.map (·.price)).set i o.price = l.map (·.price)
    rw [hpo, set_get_self]
  rw [bidsSorted_map] at hs ⊢
  rw [hmap]
  exact hs

theorem asksSorted_set_amount (l : List Order) (i : Nat) (o : Order) (a : Rat)
    (h : i < l.length) (hget : l.get ⟨i, h⟩ = o) (hs : asksSorted l) :
    asksSorted (l.set i ({ o with amount := a })) := by
  have hmap : (l.set i ({ o with amount := a })).map (·.price) = l.map (·.price) := by
    rw [List.map_set]
    have hpo : o.price = (l.map (·.price)).get ⟨i, by simpa using h⟩ := by
      simp [← hget]
    show (l.map (·.price)).set i o.price = l.map (·.price)
    rw [hpo, set_get_self]
  rw [asksSorted_map] at hs ⊢
  rw [hmap]
  exact hs

theorem bidsSorted_eraseIdx (l : List Order) (i : Nat) (hs : bidsSorted l) :
    bidsSorted (l.eraseIdx i) :=
  List.Pairwise.sublist (List.eraseIdx_sublist l i) hs

theorem asksSorted_eraseIdx (l : List Order) (i : Nat) (hs : asksSorted l) :
    asksSorted (l.eraseIdx i) :=
  List.Pairwise.sublist (List.eraseIdx_sublist l i) hs

theorem asksSorted_matchLoop (order : Order) (l : List Order) (remaining : Rat)
    (hs : asksSorted l) : asksSorted (matchLoop order remaining l).2.2 := by
  rw [asksSorted_map] at hs ⊢
  exact List.Pairwise.sublist (matchLoop_suffix order l remaining).sublist hs

theorem bidsSorted_matchLoop (order : Order) (l : List Order) (remaining : Rat)
    (hs : bidsSorted l) : bidsSorted (matchLoop order remaining l).2.2 := by
  rw [bidsSorted_map] at hs ⊢
  exact List.Pairwise.sublist (matchLoop_suffix order l remaining).sublist hs

theorem PlaceOrder_sorted (ob : OrderBook) (o : Order)
    (hb : bidsSorted ob.bids) (ha : asksSorted ob.asks) :
    bidsSorted (ob.PlaceOrder o).1.bids ∧ asksSorted (ob.PlaceOrder o).1.asks := by
  unfold OrderBook.PlaceOrder
  split_ifs with h1 h2 h3
  · exact ⟨hb, ha⟩
  · exact ⟨bidsSorted_insertSorted _ _ hb, ha⟩
  · exact ⟨hb, asksSorted_insertSorted _ _ ha⟩
  · exact ⟨hb, ha⟩

theorem CancelOrder_sorted (ob : OrderBook) (orderID : String)
    (hb : bidsSorted ob.bids) (ha : asksSorted ob.asks) :
    bidsSorted (ob.CancelOrder orderID).1.bids ∧ asksSorted (ob.CancelOrder orderID).1.asks := by
  unfold OrderBook.CancelOrder
  cases hfb : findOrder orderID ob.bids with
  | some p =>
    obtain ⟨i, o⟩ := p
    exact ⟨bidsSorted_eraseIdx _ _ hb, ha⟩
  | none =>
    cases hfa : findOrder orderID ob.asks with
    | some p =>
      obtain ⟨i, o⟩ := p
      exact ⟨hb, asksSorted_eraseIdx _ _ ha⟩
    | none => exact ⟨hb, ha⟩

theorem ModifyOrder_sorted (ob : OrderBook) (orderID : String) (p a : Rat)
    (hb : bidsSorted ob.bids) (ha : asksSorted ob.asks) :
    bidsSorted (ob.ModifyOrder orderID p a).1.bids ∧
      asksSorted (ob.ModifyOrder orderID p a).1.asks := by
  by_cases hv : p ≤ 0 ∨ a ≤ 0
  · have hres : ob.ModifyOrder orderID p a = (ob, some .invalidModification) := by
      unfold OrderBook.ModifyOrder
      rw [if_pos hv]
    rw [hres]
    exact ⟨hb, ha⟩
  · cases hfb : findOrder orderID ob.bids with
    | some q =>
      obtain ⟨i, o⟩ := q
      obtain ⟨hlt, hget⟩ := findOrder_some orderID ob.bids i o hfb
      by_cases hp : p = o.price
      · have hres : ob.ModifyOrder orderID p a =
            ({ ob with bids := ob.bids.set i (Order.mk o.id o.price a o.side) }, none) := by
          unfold OrderBook.ModifyOrder
          rw [if_neg hv, hfb]
          simp [hp]
        rw [hres]
        exact ⟨bidsSorted_set_amount ob.bids i o a hlt hget hb, ha⟩
      · have hres : ob.ModifyOrder orderID p a =
            ({ ob with bids := insertSorted (ob.bids.eraseIdx i) (Order.mk o.id p a o.side) false }, none) := by
          unfold OrderBook.ModifyOrder
          rw [if_neg hv, hfb]
          simp [hp]
        rw [hres]
        exact ⟨bidsSorted_insertSorted _ _ (bidsSorted_eraseIdx _ _ hb), ha⟩
    | none =>
      cases hfa : findOrder orderID ob.asks with
      | some q =>
        obtain ⟨i, o⟩ := q
        obtain ⟨hlt, hget⟩ := findOrder_some orderID ob.asks i o hfa
        by_cases hp : p = o.price
        · have hres : ob.ModifyOrder orderID p a =
              ({ ob with asks := ob.asks.set i (Order.mk o.id o.price a o.side) }, none) := by
            unfold OrderBook.ModifyOrder
            rw [if_neg hv, hfb, hfa]
            simp [hp]
          rw [hres]
          exact ⟨hb, asksSorted_set_amount ob.asks i o a hlt hget ha⟩
        · have hres : ob.ModifyOrder orderID p a =
              ({ ob with asks := insertSorted (ob.asks.eraseIdx i) (Order.mk o.id p a o.side) true }, none) := by
            unfold OrderBook.ModifyOrder
            rw [if_neg hv, hfb, hfa]
            simp [hp]
          rw [hres]
          exact ⟨hb, asksSorted_insertSorted _ _ (asksSorted_eraseIdx _ _ ha)⟩
      | none =>
        have hres : ob.ModifyOrder orderID p a = (ob, some .orderNotFound) := by
          unfold OrderBook.ModifyOrder
          rw [if_neg hv, hfb, hfa]
        rw [hres]
        exact ⟨hb, ha⟩

theorem ProcessOrder_sorted (ob : OrderBook) (o : Order)
    (hb : bidsSorted ob.bids) (ha : asksSorted ob.asks) :
    bidsSorted (ob.ProcessOrder o).2.1.bids ∧ asksSorted (ob.ProcessOrder o).2.1.asks := by
  unfold OrderBook.ProcessOrder
  by_cases hs1 : o.side = Buy
  · simp only [hs1, if_true]
    have ha' : asksSorted (matchLoop o o.amount ob.asks).2.2 :=
      asksSorted_matchLoop o ob.asks o.amount ha
    by_cases hrem : 0 < (matchLoop o o.amount ob.asks).2.1
    · simp only [hrem, if_true]
      exact PlaceOrder_sorted _ _ hb ha'
    · simp only [hrem, if_false]
      exact ⟨hb, ha'⟩
  · simp only [hs1, if_false]
    by_cases hs2 : o.side = Sell
    · simp only [hs2, if_true]
      have hb' : bidsSorted (matchLoop o o.amount ob.bids).2.2 :=
        bidsSorted_matchLoop o ob.bids o.amount hb
      by_cases hrem : 0 < (matchLoop o o.amount ob.bids).2.1
      · simp only [hrem, if_true]
        exact PlaceOrder_sorted _ _ hb' ha
      · simp only [hrem, if_false]
        exact ⟨hb', ha⟩
    · simp only [hs2, if_false]
      exact ⟨hb, ha⟩

/-- Book states reachable from the empty book through the four mutating
operations. -/
inductive Reachable : OrderBook → Prop where
  | empty : Reachable NewOrderBook
  | place (ob : OrderBook) (o : Order) : Reachable ob → Reachable (ob.PlaceOrder o).1
  | cancel (ob : OrderBook) (orderID : String) :
      Reachable ob → Reachable (ob.CancelOrder orderID).1
  | modify (ob : OrderBook) (orderID : String) (p a : Rat) :
      Reachable ob → Reachable (ob.ModifyOrder orderID p a).1
  | process (ob : OrderBook) (o : Order) :
      Reachable ob → Reachable (ob.ProcessOrder o).2.1

theorem Reachable.sorted (ob : OrderBook) (h : Reachable ob) :
    bidsSorted ob.bids ∧ asksSorted ob.asks := by
  induction h with
  | empty => exact ⟨List.Pairwise.nil, List.Pairwise.nil⟩
  | place ob o _ ih => exact PlaceOrder_sorted ob o ih.1 ih.2
  | cancel ob orderID _ ih => exact CancelOrder_sorted ob orderID ih.1 ih.2
  | modify ob orderID p a _ ih => exact ModifyOrder_sorted ob orderID p a ih.1 ih.2
  | process ob o _ ih => exact ProcessOrder_sorted ob o ih.1 ih.2

/-- Embedding of the second variant's `insertSorted` (linear scan): the index
of the first element whose price is strictly worse than the new order's
(greater for ascending order, smaller for descending), or the length when
none is. -/
def linearScanIdx (order : Order) (ascending : Bool) : List Order → Nat
  | [] => 0
  | x :: rest =>
    if (ascending && decide (x.price > order.price)) ||
        (!ascending && decide (x.price < order.price)) then 0
    else linearScanIdx order ascending rest + 1

/-- Embedding of the second variant's `insertSorted`: splice the order in at
the linear-scan break index (`append(orders[:i], append([]Order{order}, orders[i:]...)...)`). -/
def insertSortedLinear (orders : List Order) (order : Order) (ascending : Bool) : List Order :=
  let i := linearScanIdx order ascending orders
  orders.take i ++ order :: orders.drop i

theorem insertSortedLinear_eq_asc (o : Order) :
    ∀ l : List Order,
      insertSortedLinear l o true =
        l.takeWhile (fun x => decide (x.price ≤ o.price)) ++
          o :: l.dropWhile (fun x => decide (x.price ≤ o.price)) := by
  intro l
  induction l with
  | nil => rfl
  | cons x xs ih =>
    by_cases hc : o.price < x.price
    · have hidx : linearScanIdx o true (x :: xs) = 0 := by
        simp [linearScanIdx, hc]
      have hkeep : decide (x.price ≤ o.price) = false := by
        simp [not_le.mpr hc]
      simp [insertSortedLinear, hidx, List.takeWhile_cons, List.dropWhile_cons, hkeep]
    · have hidx : linearScanIdx o true (x :: xs) = linearScanIdx o true xs + 1 := by
        simp [linearScanIdx, hc]
      have hkeep : decide (x.price ≤ o.price) = true := by
        simp [not_lt.mp hc]
      simp only [insertSortedLinear, hidx, List.take_succ_cons, List.drop_succ_cons,
        List.takeWhile_cons, List.dropWhile_cons, hkeep, if_true, List.cons_append]
      rw [← ih]
      rfl

theorem insertSortedLinear_eq_desc (o : Order) :
    ∀ l : List Order,
      insertSortedLinear l o false =
        l.takeWhile (fun x => decide (o.price ≤ x.price)) ++
          o :: l.dropWhile (fun x => decide (o.price ≤ x.price)) := by
  intro l
  induction l with
  | nil => rfl
  | cons x xs ih =>
    by_cases hc : x.price < o.price
    · have hidx : linearScanIdx o false (x :: xs) = 0 := by
        simp [linearScanIdx, hc]
      have hkeep : decide (o.price ≤ x.price) = false := by
        simp [not_le.mpr hc]
      simp [insertSortedLinear, hidx, List.takeWhile_cons, List.dropWhile_cons, hkeep]
    · have hidx : linearScanIdx o false (x :: xs) = linearScanIdx o false xs + 1 := by
        simp [linearScanIdx, hc]
      have hkeep : decide (o.price ≤ x.price) = true := by
        simp [not_lt.mp hc]
      simp only [insertSortedLinear, hidx, List.take_succ_cons, List.drop_succ_cons,
        List.takeWhile_cons, List.dropWhile_cons, hkeep, if_true, List.cons_append]
      rw [← ih]
      rfl

theorem dropWhile_lt_of_bidsSorted (o : Order) :
    ∀ l : List Order, bidsSorted l →
      ∀ x ∈ l.dropWhile (fun x => decide (o.price ≤ x.price)), x.price < o.price := by
  intro l
  induction l with
  | nil => simp
  | cons y ys ih =>
    intro h x hx
    rcases List.pairwise_cons.mp h with ⟨hy, hys⟩
    by_cases hp : o.price ≤ y.price
    · rw [List.dropWhile_cons] at hx
      simp only [hp, decide_True, if_true] at hx
      exact ih hys x hx
    · rw [List.dropWhile_cons] at hx
      simp only [hp, decide_False, if_false] at hx
      rcases List.mem_cons.mp hx with rfl | hx
      · exact lt_of_not_ge hp
      · exact lt_of_le_of_lt (hy x hx) (lt_of_not_ge hp)

theorem dropWhile_gt_of_asksSorted (o : Order) :
    ∀ l : List Order, asksSorted l →
      ∀ x ∈ l.dropWhile (fun x => decide (x.price ≤ o.price)), o.price < x.price := by
  intro l
  induction l with
  | nil => simp
  | cons y ys ih =>
    intro h x hx
    rcases List.pairwise_cons.mp h with ⟨hy, hys⟩
    by_cases hp : y.price ≤ o.price
    · rw [List.dropWhile_cons] at hx
      simp only [hp, decide_True, if_true] at hx
      exact ih hys x hx
    · rw [List.dropWhile_cons] at hx
      simp only [hp, decide_False, if_false] at hx
      rcases List.mem_cons.mp hx with rfl | hx
      · exact lt_of_not_ge hp
      · exact lt_of_lt_of_le (lt_of_not_ge hp) (hy x hx)

/-- C2: in every book state reachable from the empty book through
`PlaceOrder`, `CancelOrder`, `ModifyOrder` and `ProcessOrder`, the bids are
ordered by non-increasing price and the asks by non-decreasing price (hence
strictly across distinct price levels), and `insertSorted` realizes the
time-priority tie-break: on a sorted sequence it keeps every
not-strictly-worse order (equal price included) in front of the inserted
order, keeps the relative order of the resident orders, and everything
behind the inserted order is strictly worse-priced. -/
theorem C2_sort_invariant :
    (∀ ob : OrderBook, Reachable ob → bidsSorted ob.bids ∧ asksSorted ob.asks) ∧
    (∀ (l : List Order) (o : Order),
      (bidsSorted l →
        insertSorted l o false =
          l.takeWhile (fun x => decide (o.price ≤ x.price)) ++
            o :: l.dropWhile (fun x => decide (o.price ≤ x.price)) ∧
        ∀ x ∈ l.dropWhile (fun x => decide (o.price ≤ x.price)), x.price < o.price) ∧
      (asksSorted l →
        insertSorted l o true =
          l.takeWhile (fun x => decide (x.price ≤ o.price)) ++
            o :: l.dropWhile (fun x => decide (x.price ≤ o.price)) ∧
        ∀ x ∈ l.dropWhile (fun x => decide (x.price ≤ o.price)), o.price < x.price)) := by
  refine ⟨Reachable.sorted, ?_⟩
  intro l o
  constructor
  · intro h
    exact ⟨insertSorted_eq_of_bidsSorted l o h, dropWhile_lt_of_bidsSorted o l h⟩
  · intro h
    exact ⟨insertSorted_eq_of_asksSorted l o h, dropWhile_gt_of_asksSorted o l h⟩

/-- C2 witness: the invariant evaluated on a concrete reachable state, and
the insertion characterization on a concrete sorted bid sequence. -/
theorem C2_sort_invariant_witness :
    (bidsSorted ((NewOrderBook.PlaceOrder (Order.mk "b1" 100 1 Buy)).1.PlaceOrder
        (Order.mk "b2" 101 2 Buy)).1.bids ∧
      asksSorted ((NewOrderBook.PlaceOrder (Order.mk "b1" 100 1 Buy)).1.PlaceOrder
        (Order.mk "b2" 101 2 Buy)).1.asks) ∧
    insertSorted [Order.mk "b2" 101 2 Buy, Order.mk "b1" 100 1 Buy]
        (Order.mk "b3" 100 5 Buy) false =
      [Order.mk "b2" 101 2 Buy, Order.mk "b1" 100 1 Buy, Order.mk "b3" 100 5 Buy] := by
  constructor
  · exact C2_sort_invariant.1 _
      (Reachable.place _ _ (Reachable.place _ _ Reachable.empty))
  · have hsorted : bidsSorted [Order.mk "b2" 101 2 Buy, Order.mk "b1" 100 1 Buy] := by
      rw [bidsSorted]
      refine List.Pairwise.cons ?_ (List.Pairwise.cons ?_ List.Pairwise.nil) <;> simp <;> norm_num
    have h := (C2_sort_invariant.2 [Order.mk "b2" 101 2 Buy, Order.mk "b1" 100 1 Buy]
      (Order.mk "b3" 100 5 Buy)).1 hsorted
    rw [h.1]
    rfl

/-- C10: on any sequence that is sorted for the given direction, the
`sort.Search`-based `insertSorted` of the first variant and the linear-scan
`insertSorted` of the second variant agree, and both place the new order
immediately before the first element whose price is strictly worse
(after the whole run of not-worse prices). -/
theorem C10_insertSorted_equiv (l : List Order) (o : Order) :
    (asksSorted l →
      insertSorted l o true = insertSortedLinear l o true ∧
      insertSortedLinear l o true =
        l.takeWhile (fun x => decide (x.price ≤ o.price)) ++
          o :: l.dropWhile (fun x => decide (x.price ≤ o.price))) ∧
    (bidsSorted l →
      insertSorted l o false = insertSortedLinear l o false ∧
      insertSortedLinear l o false =
        l.takeWhile (fun x => decide (o.price ≤ x.price)) ++
          o :: l.dropWhile (fun x => decide (o.price ≤ x.price))) := by
  constructor
  · intro h
    have h1 := insertSorted_eq_of_asksSorted l o h
    have h2 := insertSortedLinear_eq_asc o l
    exact ⟨by rw [h1, h2], h2⟩
  · intro h
    have h1 := insertSorted_eq_of_bidsSorted l o h
    have h2 := insertSortedLinear_eq_desc o l
    exact ⟨by rw [h1, h2], h2⟩

/-- C10 witness: agreement of the two insertion routines on a concrete
sorted ask sequence, inserting in the middle of an equal-price run. -/
theorem C10_insertSorted_equiv_witness :
    asksSorted [Order.mk "a1" 100 1 Sell, Order.mk "a2" 101 2 Sell] ∧
    insertSorted [Order.mk "a1" 100 1 Sell, Order.mk "a2" 101 2 Sell]
        (Order.mk "a3" 100 3 Sell) true =
      insertSortedLinear [Order.mk "a1" 100 1 Sell, Order.mk "a2" 101 2 Sell]
        (Order.mk "a3" 100 3 Sell) true := by
  have hsorted : asksSorted [Order.mk "a1" 100 1 Sell, Order.mk "a2" 101 2 Sell] := by
    rw [asksSorted]
    refine List.Pairwise.cons ?_ (List.Pairwise.cons ?_ List.Pairwise.nil) <;> simp <;> norm_num
  exact ⟨hsorted,
    (C10_insertSorted_equiv [Order.mk "a1" 100 1 Sell, Order.mk "a2" 101 2 Sell]
      (Order.mk "a3" 100 3 Sell)).1 hsorted |>.1⟩

/-- C5: `PlaceOrder` fails with the invalid-order error exactly when price or
amount is non-positive; otherwise it returns no error and inserts the order
into its side's sequence, and the only way the insertion does not take place
is an unrecognized side value (anything other than Buy or Sell), in which
case the book is left unchanged. -/
theorem C5_PlaceOrder_spec (ob : OrderBook) (o : Order) :
    ((o.price ≤ 0 ∨ o.amount ≤ 0) ↔ ob.PlaceOrder o = (ob, some OBError.invalidOrder)) ∧
    (0 < o.price → 0 < o.amount →
      (ob.PlaceOrder o).2 = none ∧
      (o.side = Buy → (ob.PlaceOrder o).1 = { ob with bids := insertSorted ob.bids o false }) ∧
      (o.side = Sell → (ob.PlaceOrder o).1 = { ob with asks := insertSorted ob.asks o true }) ∧
      (o.side ≠ Buy → o.side ≠ Sell → (ob.PlaceOrder o).1 = ob)) := by
  constructor
  · constructor
    · intro h
      unfold OrderBook.PlaceOrder
      rw [if_pos h]
    · intro h
      by_contra hv
      push_neg at hv
      unfold OrderBook.PlaceOrder at h
      rw [if_neg (by push_neg; exact hv)] at h
      by_cases h1 : o.side = Buy
      · rw [if_pos h1] at h
        exact Option.noConfusion (congrArg Prod.snd h)
      · rw [if_neg h1] at h
        by_cases h2 : o.side = Sell
        · rw [if_pos h2] at h
          exact Option.noConfusion (congrArg Prod.snd h)
        · rw [if_neg h2] at h
          exact Option.noConfusion (congrArg Prod.snd h)
  · intro hp ha
    have hv : ¬(o.price ≤ 0 ∨ o.amount ≤ 0) := by push_neg; exact ⟨hp, ha⟩
    unfold OrderBook.PlaceOrder
    rw [if_neg hv]
    by_cases h1 : o.side = Buy
    · rw [if_pos h1]
      exact ⟨rfl, fun _ => rfl, fun h2 => absurd (h1.symm.trans h2) (by rw [Buy, Sell]; simp),
        fun hn _ => absurd h1 hn⟩
    · rw [if_neg h1]
      by_cases h2 : o.side = Sell
      · rw [if_pos h2]
        exact ⟨rfl, fun hb => absurd hb h1, fun _ => rfl, fun _ hn => absurd h2 hn⟩
      · rw [if_neg h2]
        exact ⟨rfl, fun hb => absurd hb h1, fun hs => absurd hs h2, fun _ _ => rfl⟩

/-- C5 witness: the specification evaluated at a concrete valid Buy order on
the empty book, and at a concrete invalid order. -/
theorem C5_PlaceOrder_spec_witness :
    ((0:Rat) < 100 ∧ (0:Rat) < 2) ∧
    (NewOrderBook.PlaceOrder (Order.mk "w" 100 2 Buy)).2 = none ∧
    (NewOrderBook.PlaceOrder (Order.mk "w" 100 2 Buy)).1 =
      { NewOrderBook with bids := insertSorted NewOrderBook.bids (Order.mk "w" 100 2 Buy) false } ∧
    NewOrderBook.PlaceOrder (Order.mk "w" 100 (-2) Buy) =
      (NewOrderBook, some OBError.invalidOrder) := by
  have h := C5_PlaceOrder_spec NewOrderBook (Order.mk "w" 100 2 Buy)
  have hvalid := h.2 (by norm_num) (by norm_num)
  refine ⟨⟨by norm_num, by norm_num⟩, hvalid.1, hvalid.2.1 rfl, ?_⟩
  exact (C5_PlaceOrder_spec NewOrderBook (Order.mk "w" 100 (-2) Buy)).1.mp (by right; norm_num)

/-- C7: `ModifyOrder` with a non-positive new price or amount fails with the
invalid-modification error and leaves the book unchanged; with valid new
values but an id absent from both sides it fails with the order-not-found
error, also leaving the book unchanged. -/
theorem C7_ModifyOrder_errors (ob : OrderBook) (orderID : String) (p a : Rat) :
    ((p ≤ 0 ∨ a ≤ 0) → ob.ModifyOrder orderID p a = (ob, some OBError.invalidModification)) ∧
    (0 < p → 0 < a → findOrder orderID ob.bids = none → findOrder orderID ob.asks = none →
      ob.ModifyOrder orderID p a = (ob, some OBError.orderNotFound)) := by
  constructor
  · intro h
    unfold OrderBook.ModifyOrder
    rw [if_pos h]
  · intro hp ha hb hfa
    have hv : ¬(p ≤ 0 ∨ a ≤ 0) := by push_neg; exact ⟨hp, ha⟩
    unfold OrderBook.ModifyOrder
    rw [if_neg hv, hb, hfa]

/-- C7 witness: both error paths evaluated on a concrete one-order book. -/
theorem C7_ModifyOrder_errors_witness :
    (NewOrderBook.PlaceOrder (Order.mk "w" 100 2 Buy)).1.ModifyOrder "w" (-1) 5 =
      ((NewOrderBook.PlaceOrder (Order.mk "w" 100 2 Buy)).1,
        some OBError.invalidModification) ∧
    (NewOrderBook.PlaceOrder (Order.mk "w" 100 2 Buy)).1.ModifyOrder "nope" 7 5 =
      ((NewOrderBook.PlaceOrder (Order.mk "w" 100 2 Buy)).1, some OBError.orderNotFound) := by
  constructor
  · exact (C7_ModifyOrder_errors _ "w" (-1) 5).1 (by left; norm_num)
  · exact (C7_ModifyOrder_errors _ "nope" 7 5).2 (by norm_num) (by norm_num)
      (by decide) (by decide)

/-- C6: for an order resident in the book, `ModifyOrder` with its current
price rewrites only that order's amount at its position; with a different
(valid) price it removes the order and re-inserts it through `insertSorted`,
which lands it behind every order whose price is not strictly worse — in
particular behind the whole run of orders already resting at the new price —
while everything behind it is strictly worse-priced. -/
theorem C6_ModifyOrder_reposition (ob : OrderBook) (orderID : String)
    (hb : bidsSorted ob.bids) (ha : asksSorted ob.asks) :
    (∀ i o newAmount, findOrder orderID ob.bids = some (i, o) →
      ¬(o.price ≤ 0 ∨ newAmount ≤ 0) →
      ob.ModifyOrder orderID o.price newAmount =
        ({ ob with bids := ob.bids.set i (Order.mk o.id o.price newAmount o.side) }, none)) ∧
    (∀ i o newPrice newAmount, findOrder orderID ob.bids = some (i, o) →
      ¬(newPrice ≤ 0 ∨ newAmount ≤ 0) → newPrice ≠ o.price →
      ob.ModifyOrder orderID newPrice newAmount =
        ({ ob with bids := insertSorted (ob.bids.eraseIdx i) (Order.mk o.id newPrice newAmount o.side) false }, none) ∧
      insertSorted (ob.bids.eraseIdx i) (Order.mk o.id newPrice newAmount o.side) false =
        (ob.bids.eraseIdx i).takeWhile (fun x => decide (newPrice ≤ x.price)) ++
          Order.mk o.id newPrice newAmount o.side ::
            (ob.bids.eraseIdx i).dropWhile (fun x => decide (newPrice ≤ x.price)) ∧
      (∀ x ∈ (ob.bids.eraseIdx i).dropWhile (fun x => decide (newPrice ≤ x.price)),
        x.price < newPrice)) ∧
    (∀ i o newAmount, findOrder orderID ob.bids = none →
      findOrder orderID ob.asks = some (i, o) →
      ¬(o.price ≤ 0 ∨ newAmount ≤ 0) →
      ob.ModifyOrder orderID o.price newAmount =
        ({ ob with asks := ob.asks.set i (Order.mk o.id o.price newAmount o.side) }, none)) ∧
    (∀ i o newPrice newAmount, findOrder orderID ob.bids = none →
      findOrder orderID ob.asks = some (i, o) →
      ¬(newPrice ≤ 0 ∨ newAmount ≤ 0) → newPrice ≠ o.price →
      ob.ModifyOrder orderID newPrice newAmount =
        ({ ob with asks := insertSorted (ob.asks.eraseIdx i) (Order.mk o.id newPrice newAmount o.side) true }, none) ∧
      insertSorted (ob.asks.eraseIdx i) (Order.mk o.id newPrice newAmount o.side) true =
        (ob.asks.eraseIdx i).takeWhile (fun x => decide (x.price ≤ newPrice)) ++
          Order.mk o.id newPrice newAmount o.side ::
            (ob.asks.eraseIdx i).dropWhile (fun x => decide (x.price ≤ newPrice)) ∧
      (∀ x ∈ (ob.asks.eraseIdx i).dropWhile (fun x => decide (x.price ≤ newPrice)),
        newPrice < x.price)) := by
  refine ⟨?_, ?_, ?_, ?_⟩
  · intro i o newAmount hfb hv
    unfold OrderBook.ModifyOrder
    rw [if_neg hv, hfb]
    simp
  · intro i o newPrice newAmount hfb hv hne
    have herase : bidsSorted (ob.bids.eraseIdx i) := bidsSorted_eraseIdx _ _ hb
    have hchar := insertSorted_eq_of_bidsSorted (ob.bids.eraseIdx i)
      (Order.mk o.id newPrice newAmount o.side) herase
    have hdrop := dropWhile_lt_of_bidsSorted (Order.mk o.id newPrice newAmount o.side)
      (ob.bids.eraseIdx i) herase
    refine ⟨?_, hchar, hdrop⟩
    unfold OrderBook.ModifyOrder
    rw [if_neg hv, hfb]
    simp [hne]
  · intro i o newAmount hfb hfa hv
    unfold OrderBook.ModifyOrder
    rw [if_neg hv, hfb, hfa]
    simp
  · intro i o newPrice newAmount hfb hfa hv hne
    have herase : asksSorted (ob.asks.eraseIdx i) := asksSorted_eraseIdx _ _ ha
    have hchar := insertSorted_eq_of_asksSorted (ob.asks.eraseIdx i)
      (Order.mk o.id newPrice newAmount o.side) herase
    have hdrop := dropWhile_gt_of_asksSorted (Order.mk o.id newPrice newAmount o.side)
      (ob.asks.eraseIdx i) herase
    refine ⟨?_, hchar, hdrop⟩
    unfold OrderBook.ModifyOrder
    rw [if_neg hv, hfb, hfa]
    simp [hne]

/-- C6 witness: the spec's reposition example — bid1 at 100 and bid2 at 101
resident; modifying bid1 to price 101 lands it after bid2; and an
amount-only modification rewrites the amount in place. -/
theorem C6_ModifyOrder_reposition_witness :
    (((NewOrderBook.PlaceOrder (Order.mk "bid1" 100 1 Buy)).1.PlaceOrder
        (Order.mk "bid2" 101 1 Buy)).1.ModifyOrder "bid1" 101 1 =
      ({ bids := [Order.mk "bid2" 101 1 Buy, Order.mk "bid1" 101 1 Buy], asks := [] }, none)) ∧
    (((NewOrderBook.PlaceOrder (Order.mk "bid1" 100 1 Buy)).1.PlaceOrder
        (Order.mk "bid2" 101 1 Buy)).1.ModifyOrder "bid1" 100 7 =
      ({ bids := [Order.mk "bid2" 101 1 Buy, Order.mk "bid1" 100 7 Buy], asks := [] }, none)) := by
  have hreach : Reachable ((NewOrderBook.PlaceOrder (Order.mk "bid1" 100 1 Buy)).1.PlaceOrder
      (Order.mk "bid2" 101 1 Buy)).1 :=
    Reachable.place _ _ (Reachable.place _ _ Reachable.empty)
  have hsorted := Reachable.sorted _ hreach
  have hbook : ((NewOrderBook.PlaceOrder (Order.mk "bid1" 100 1 Buy)).1.PlaceOrder
      (Order.mk "bid2" 101 1 Buy)).1 =
      { bids := [Order.mk "bid2" 101 1 Buy, Order.mk "bid1" 100 1 Buy], asks := [] } := by
    decide
  have hspec := C6_ModifyOrder_reposition ((NewOrderBook.PlaceOrder
      (Order.mk "bid1" 100 1 Buy)).1.PlaceOrder (Order.mk "bid2" 101 1 Buy)).1
    "bid1" hsorted.1 hsorted.2
  constructor
  · have hfind : findOrder "bid1" ((NewOrderBook.PlaceOrder (Order.mk "bid1" 100 1 Buy)).1.PlaceOrder
        (Order.mk "bid2" 101 1 Buy)).1.bids = some (1, Order.mk "bid1" 100 1 Buy) := by
      decide
    have h := (hspec.2.1 1 (Order.mk "bid1" 100 1 Buy) 101 1 hfind
      (by norm_num) (by norm_num)).1
    rw [h, hbook]
    decide
  · have hfind : findOrder "bid1" ((NewOrderBook.PlaceOrder (Order.mk "bid1" 100 1 Buy)).1.PlaceOrder
        (Order.mk "bid2" 101 1 Buy)).1.bids = some (1, Order.mk "bid1" 100 1 Buy) := by
      decide
    have h := hspec.1 1 (Order.mk "bid1" 100 1 Buy) 7 hfind (by norm_num)
    rw [h, hbook]
    decide

/-- C1 counterexample: `ProcessOrder` performs no validation of the incoming
order, so a Buy with amount -1 on the empty book yields no trades and places
nothing (the remainder check `remaining > 0` fails), and the conservation
equation `sum of trade amounts + amount placed = order.amount` is violated:
`0 + 0 ≠ -1`. -/
theorem C1_conservation_cx :
    ¬ (((NewOrderBook.ProcessOrder (Order.mk "cx" 100 (-1) Buy)).1.map (·.amount)).sum +
        (amountSum (NewOrderBook.ProcessOrder (Order.mk "cx" 100 (-1) Buy)).2.1.bids -
          amountSum NewOrderBook.bids) =
      (Order.mk "cx" 100 (-1) Buy).amount) := by
  intro h
  have heval : NewOrderBook.ProcessOrder (Order.mk "cx" 100 (-1) Buy) =
      ([], NewOrderBook, none) := by decide
  rw [heval] at h
  norm_num [amountSum, NewOrderBook] at h

/-- C1 (amended): for every book state and every valid incoming order
(positive price, positive amount, side Buy or Sell), the sum of the amounts
of the trades returned by `ProcessOrder` plus the amount deposited on the
incoming order's own side (zero when nothing is deposited) equals the
order's amount. -/
theorem C1_conservation (ob : OrderBook) (o : Order)
    (hp : 0 < o.price) (ha : 0 < o.amount) (hside : o.side = Buy ∨ o.side = Sell) :
    ((ob.ProcessOrder o).1.map (·.amount)).sum +
      (if o.side = Buy then amountSum (ob.ProcessOrder o).2.1.bids - amountSum ob.bids
       else amountSum (ob.ProcessOrder o).2.1.asks - amountSum ob.asks) = o.amount := by
  have hv : ¬(o.price ≤ 0 ∨ o.amount ≤ 0) := by push_neg; constructor <;> linarith
  rcases hside with hs | hs
  · rw [if_pos hs]
    unfold OrderBook.ProcessOrder
    rw [if_pos hs]
    have hsum := matchLoop_sum o ob.asks o.amount
    by_cases hrem : 0 < (matchLoop o o.amount ob.asks).2.1
    · rw [if_pos hrem]
      have hvr : ¬((Order.mk o.id o.price (matchLoop o o.amount ob.asks).2.1 o.side).price ≤ 0 ∨
          (Order.mk o.id o.price (matchLoop o o.amount ob.asks).2.1 o.side).amount ≤ 0) := by
        push_neg
        exact ⟨hp, hrem⟩
      unfold OrderBook.PlaceOrder
      rw [if_neg hvr, if_pos hs]
      simp only [amountSum_insertSorted]
      rw [hsum]
      ring
    · rw [if_neg hrem]
      have hnn := matchLoop_rem_nonneg o ob.asks o.amount (le_of_lt ha)
      have hzero : (matchLoop o o.amount ob.asks).2.1 = 0 := by linarith [not_lt.mp hrem]
      rw [hsum, hzero]
      ring
  · have hnb : o.side ≠ Buy := by
      rw [hs]
      rw [Buy, Sell]
      simp
    rw [if_neg hnb]
    unfold OrderBook.ProcessOrder
    rw [if_neg hnb, if_pos hs]
    have hsum := matchLoop_sum o ob.bids o.amount
    by_cases hrem : 0 < (matchLoop o o.amount ob.bids).2.1
    · rw [if_pos hrem]
      have hvr : ¬((Order.mk o.id o.price (matchLoop o o.amount ob.bids).2.1 o.side).price ≤ 0 ∨
          (Order.mk o.id o.price (matchLoop o o.amount ob.bids).2.1 o.side).amount ≤ 0) := by
        push_neg
        exact ⟨hp, hrem⟩
      unfold OrderBook.PlaceOrder
      rw [if_neg hvr]
      rw [if_neg (by rw [hs] at hnb ⊢; exact hnb), if_pos hs]
      simp only [amountSum_insertSorted]
      rw [hsum]
      ring
    · rw [if_neg hrem]
      have hnn := matchLoop_rem_nonneg o ob.bids o.amount (le_of_lt ha)
      have hzero : (matchLoop o o.amount ob.bids).2.1 = 0 := by linarith [not_lt.mp hrem]
      rw [hsum, hzero]
      ring

/-- C1 witness: conservation evaluated on the spec's partial-fill example —
a resting Sell of 1.0 at 100, an incoming Buy of 2.0 at 100: one trade of
amount 1.0 plus a deposited remainder of 1.0 equals the order amount 2.0. -/
theorem C1_conservation_witness :
    ((0:Rat) < 100 ∧ (0:Rat) < 2 ∧ (Order.mk "b1" 100 2 Buy).side = Buy) ∧
    (((NewOrderBook.PlaceOrder (Order.mk "s1" 100 1 Sell)).1.ProcessOrder
        (Order.mk "b1" 100 2 Buy)).1.map (·.amount)).sum +
      (if (Order.mk "b1" 100 2 Buy).side = Buy then
        amountSum ((NewOrderBook.PlaceOrder (Order.mk "s1" 100 1 Sell)).1.ProcessOrder
          (Order.mk "b1" 100 2 Buy)).2.1.bids -
          amountSum (NewOrderBook.PlaceOrder (Order.mk "s1" 100 1 Sell)).1.bids
       else amountSum ((NewOrderBook.PlaceOrder (Order.mk "s1" 100 1 Sell)).1.ProcessOrder
          (Order.mk "b1" 100 2 Buy)).2.1.asks -
          amountSum (NewOrderBook.PlaceOrder (Order.mk "s1" 100 1 Sell)).1.asks) =
      (Order.mk "b1" 100 2 Buy).amount :=
  ⟨⟨by norm_num, by norm_num, rfl⟩,
    C1_conservation (NewOrderBook.PlaceOrder (Order.mk "s1" 100 1 Sell)).1
      (Order.mk "b1" 100 2 Buy) (by norm_num) (by norm_num) (Or.inl rfl)⟩

theorem isPriceMatching_buy (o m : Order) (h : o.side = Buy) :
    isPriceMatching o m = decide (m.price ≤ o.price) := by
  unfold isPriceMatching
  rw [h, if_pos rfl]

theorem isPriceMatching_sell (o m : Order) (h : o.side = Sell) :
    isPriceMatching o m = decide (o.price ≤ m.price) := by
  unfold isPriceMatching
  rw [h, if_neg (by decide), if_pos rfl]

theorem createTrade_fields_buy (o m : Order) (e : Rat) (h : o.side = Buy) :
    (createTrade o m e).price = m.price ∧ (createTrade o m e).amount = e ∧
      (createTrade o m e).buyOrderID = o.id ∧ (createTrade o m e).sellOrderID = m.id := by
  unfold createTrade
  rw [h, if_pos rfl]
  exact ⟨rfl, rfl, rfl, rfl⟩

theorem createTrade_fields_sell (o m : Order) (e : Rat) (h : o.side = Sell) :
    (createTrade o m e).price = m.price ∧ (createTrade o m e).amount = e ∧
      (createTrade o m e).buyOrderID = m.id ∧ (createTrade o m e).sellOrderID = o.id := by
  unfold createTrade
  rw [h, if_neg (by decide), if_pos rfl]
  exact ⟨rfl, rfl, rfl, rfl⟩

theorem ProcessOrder_trades_buy (ob : OrderBook) (o : Order) (hs : o.side = Buy) :
    (ob.ProcessOrder o).1 = (matchLoop o o.amount ob.asks).1 := by
  unfold OrderBook.ProcessOrder
  rw [if_pos hs]
  by_cases hrem : 0 < (matchLoop o o.amount ob.asks).2.1
  · simp [hrem]
  · simp [hrem]

theorem ProcessOrder_trades_sell (ob : OrderBook) (o : Order) (hs : o.side = Sell) :
    (ob.ProcessOrder o).1 = (matchLoop o o.amount ob.bids).1 := by
  have hnb : o.side ≠ Buy := by rw [hs]; decide
  unfold OrderBook.ProcessOrder
  rw [if_neg hnb, if_pos hs]
  by_cases hrem : 0 < (matchLoop o o.amount ob.bids).2.1
  · simp [hrem]
  · simp [hrem]

/-- C3: during `ProcessOrder` an incoming Buy trades only against a prefix of
the asks whose members all have price at most the buy's price, the head
trades exactly when it is price-compatible (given a positive incoming
amount), and when the call stops with a positive remaining amount before
exhausting the opposing side, the order it stopped at is price-incompatible;
symmetrically for an incoming Sell against the bids. -/
theorem C3_price_compat (ob : OrderBook) (o : Order) :
    (o.side = Buy →
      (ob.ProcessOrder o).1 = (matchLoop o o.amount ob.asks).1 ∧
      (∀ i, i < (ob.ProcessOrder o).1.length →
        i < ob.asks.length ∧ (ob.asks.getD i default).price ≤ o.price) ∧
      (0 < (matchLoop o o.amount ob.asks).2.1 →
        (ob.ProcessOrder o).1.length < ob.asks.length →
        ¬ (ob.asks.getD (ob.ProcessOrder o).1.length default).price ≤ o.price) ∧
      (ob.asks ≠ [] → 0 < o.amount →
        ((ob.ProcessOrder o).1 ≠ [] ↔ (ob.asks.getD 0 default).price ≤ o.price))) ∧
    (o.side = Sell →
      (ob.ProcessOrder o).1 = (matchLoop o o.amount ob.bids).1 ∧
      (∀ i, i < (ob.ProcessOrder o).1.length →
        i < ob.bids.length ∧ o.price ≤ (ob.bids.getD i default).price) ∧
      (0 < (matchLoop o o.amount ob.bids).2.1 →
        (ob.ProcessOrder o).1.length < ob.bids.length →
        ¬ o.price ≤ (ob.bids.getD (ob.ProcessOrder o).1.length default).price) ∧
      (ob.bids ≠ [] → 0 < o.amount →
        ((ob.ProcessOrder o).1 ≠ [] ↔ o.price ≤ (ob.bids.getD 0 default).price))) := by
  constructor
  · intro hs
    have htr := ProcessOrder_trades_buy ob o hs
    refine ⟨htr, ?_, ?_, ?_⟩
    · intro i hi
      rw [htr] at hi
      obtain ⟨hlen, hcomp⟩ := matchLoop_compat o ob.asks o.amount i hi
      rw [isPriceMatching_buy o _ hs] at hcomp
      exact ⟨hlen, of_decide_eq_true hcomp⟩
    · intro hrem hlen
      rw [htr] at hlen ⊢
      have hstop := matchLoop_stop o ob.asks o.amount hrem hlen
      rw [isPriceMatching_buy o _ hs] at hstop
      exact of_decide_eq_false hstop
    · intro hne hamt
      obtain ⟨y, ys, hl⟩ := List.exists_cons_of_ne_nil hne
      rw [htr, hl]
      have hiff := matchLoop_head_iff o y ys o.amount hamt
      rw [isPriceMatching_buy o _ hs] at hiff
      rw [List.getD_cons_zero]
      constructor
      · intro h
        exact of_decide_eq_true (hiff.mp h)
      · intro h
        exact hiff.mpr (decide_eq_true h)
  · intro hs
    have htr := ProcessOrder_trades_sell ob o hs
    refine ⟨htr, ?_, ?_, ?_⟩
    · intro i hi
      rw [htr] at hi
      obtain ⟨hlen, hcomp⟩ := matchLoop_compat o ob.bids o.amount i hi
      rw [isPriceMatching_sell o _ hs] at hcomp
      exact ⟨hlen, of_decide_eq_true hcomp⟩
    · intro hrem hlen
      rw [htr] at hlen ⊢
      have hstop := matchLoop_stop o ob.bids o.amount hrem hlen
      rw [isPriceMatching_sell o _ hs] at hstop
      exact of_decide_eq_false hstop
    · intro hne hamt
      obtain ⟨y, ys, hl⟩ := List.exists_cons_of_ne_nil hne
      rw [htr, hl]
      have hiff := matchLoop_head_iff o y ys o.amount hamt
      rw [isPriceMatching_sell o _ hs] at hiff
      rw [List.getD_cons_zero]
      constructor
      · intro h
        exact of_decide_eq_true (hiff.mp h)
      · intro h
        exact hiff.mpr (decide_eq_true h)

/-- C3 witness: the spec's price-time example — asks resting at 100, 101 and
102, incoming Buy at 102 with amount 1: the head (100) is compatible and a
trade happens. -/
theorem C3_price_compat_witness :
    ((Order.mk "big" 102 1 Buy).side = Buy) ∧
    ((((NewOrderBook.PlaceOrder (Order.mk "x1" 100 1 Sell)).1.PlaceOrder
        (Order.mk "x2" 101 2 Sell)).1.ProcessOrder (Order.mk "big" 102 1 Buy)).1 ≠ [] ↔
      ((((NewOrderBook.PlaceOrder (Order.mk "x1" 100 1 Sell)).1.PlaceOrder
        (Order.mk "x2" 101 2 Sell)).1.asks.getD 0 default).price ≤ (Order.mk "big" 102 1 Buy).price)) := by
  refine ⟨rfl, ?_⟩
  have h := (C3_price_compat ((NewOrderBook.PlaceOrder (Order.mk "x1" 100 1 Sell)).1.PlaceOrder
      (Order.mk "x2" 101 2 Sell)).1 (Order.mk "big" 102 1 Buy)).1 rfl
  exact h.2.2.2 (by decide) (by norm_num)

/-- C4: every trade emitted by `ProcessOrder` carries the resting order's
price; its amount is the minimum of the incoming order's remaining amount at
that step (the order's amount less all earlier trades of the call) and the
resting order's amount; the buy-order id comes from the incoming order when
it is a Buy and from the resting order otherwise, and symmetrically for the
sell-order id. -/
theorem C4_trade_fields (ob : OrderBook) (o : Order) :
    (o.side = Buy → ∀ i, i < (ob.ProcessOrder o).1.length →
      i < ob.asks.length ∧
      ((ob.ProcessOrder o).1.getD i default).price = (ob.asks.getD i default).price ∧
      ((ob.ProcessOrder o).1.getD i default).amount =
        min (o.amount - (((ob.ProcessOrder o).1.take i).map (·.amount)).sum)
          ((ob.asks.getD i default).amount) ∧
      ((ob.ProcessOrder o).1.getD i default).buyOrderID = o.id ∧
      ((ob.ProcessOrder o).1.getD i default).sellOrderID = (ob.asks.getD i default).id) ∧
    (o.side = Sell → ∀ i, i < (ob.ProcessOrder o).1.length →
      i < ob.bids.length ∧
      ((ob.ProcessOrder o).1.getD i default).price = (ob.bids.getD i default).price ∧
      ((ob.ProcessOrder o).1.getD i default).amount =
        min (o.amount - (((ob.ProcessOrder o).1.take i).map (·.amount)).sum)
          ((ob.bids.getD i default).amount) ∧
      ((ob.ProcessOrder o).1.getD i default).buyOrderID = (ob.bids.getD i default).id ∧
      ((ob.ProcessOrder o).1.getD i default).sellOrderID = o.id) := by
  constructor
  · intro hs i hi
    have htr := ProcessOrder_trades_buy ob o hs
    rw [htr] at hi ⊢
    obtain ⟨hlen, heq⟩ := matchLoop_trades o ob.asks o.amount i hi
    obtain ⟨hprice, hamount, hbuy, hsell⟩ := createTrade_fields_buy o
      (ob.asks.getD i default)
      (min (o.amount - (((matchLoop o o.amount ob.asks).1.take i).map (·.amount)).sum)
        ((ob.asks.getD i default).amount)) hs
    rw [heq]
    exact ⟨hlen, hprice, hamount, hbuy, hsell⟩
  · intro hs i hi
    have htr := ProcessOrder_trades_sell ob o hs
    rw [htr] at hi ⊢
    obtain ⟨hlen, heq⟩ := matchLoop_trades o ob.bids o.amount i hi
    obtain ⟨hprice, hamount, hbuy, hsell⟩ := createTrade_fields_sell o
      (ob.bids.getD i default)
      (min (o.amount - (((matchLoop o o.amount ob.bids).1.take i).map (·.amount)).sum)
        ((ob.bids.getD i default).amount)) hs
    rw [heq]
    exact ⟨hlen, hprice, hamount, hbuy, hsell⟩

/-- C4 witness: the theorem applied to the spec's partial-fill example — a
book holding one resting Sell `s1` at price 100 and an incoming Buy `b1`,
with the Buy-side hypothesis discharged. -/
theorem C4_trade_fields_witness :
    (Order.mk "b1" 100 2 Buy).side = Buy ∧
    (∀ i, i < ((OrderBook.mk [] [Order.mk "s1" 100 1 Sell]).ProcessOrder
        (Order.mk "b1" 100 2 Buy)).1.length →
      i < [Order.mk "s1" 100 1 Sell].length ∧
      (((OrderBook.mk [] [Order.mk "s1" 100 1 Sell]).ProcessOrder
          (Order.mk "b1" 100 2 Buy)).1.getD i default).price =
        ([Order.mk "s1" 100 1 Sell].getD i default).price ∧
      (((OrderBook.mk [] [Order.mk "s1" 100 1 Sell]).ProcessOrder
          (Order.mk "b1" 100 2 Buy)).1.getD i default).amount =
        min ((Order.mk "b1" 100 2 Buy).amount -
            ((((OrderBook.mk [] [Order.mk "s1" 100 1 Sell]).ProcessOrder
              (Order.mk "b1" 100 2 Buy)).1.take i).map (·.amount)).sum)
          (([Order.mk "s1" 100 1 Sell].getD i default).amount) ∧
      (((OrderBook.mk [] [Order.mk "s1" 100 1 Sell]).ProcessOrder
          (Order.mk "b1" 100 2 Buy)).1.getD i default).buyOrderID = (Order.mk "b1" 100 2 Buy).id ∧
      (((OrderBook.mk [] [Order.mk "s1" 100 1 Sell]).ProcessOrder
          (Order.mk "b1" 100 2 Buy)).1.getD i default).sellOrderID =
        ([Order.mk "s1" 100 1 Sell].getD i default).id) :=
  ⟨rfl, (C4_trade_fields (OrderBook.mk [] [Order.mk "s1" 100 1 Sell])
    (Order.mk "b1" 100 2 Buy)).1 rfl⟩

/-- Embedding of the Go `OrderBookLevel` struct. -/
structure OrderBookLevel where
  price : Rat
  totalAmount : Rat
  orderCount : Nat
  deriving Repr, DecidableEq, Inhabited

/-- Embedding of the Go `OrderBookSnapshot` struct. The capture timestamp is
a clock read with no sequential content and is omitted. -/
structure OrderBookSnapshot where
  asks : List OrderBookLevel
  bids : List OrderBookLevel
  deriving Repr, DecidableEq

/-- One step of `GetOrderBookSnapshot`'s aggregation: charge the order to its
price's level, creating the level on first sight. The source keys levels by
a Go map; an association list in first-encounter order realizes one
admissible iteration order, and the sort below (over pairwise-distinct
prices) makes the snapshot independent of that choice. -/
def addToLevels (levels : List OrderBookLevel) (o : Order) : List OrderBookLevel :=
  if levels.any (fun lv => decide (lv.price = o.price)) then
    levels.map (fun lv =>
      if lv.price = o.price then
        { lv with totalAmount := lv.totalAmount + o.amount, orderCount := lv.orderCount + 1 }
      else lv)
  else levels ++ [OrderBookLevel.mk o.price o.amount 1]

/-- The per-side aggregation pass of `GetOrderBookSnapshot`. -/
def aggregateLevels (orders : List Order) : List OrderBookLevel :=
  orders.foldl addToLevels []

/-- Embedding of `GetOrderBookSnapshot`: aggregate each side by price level,
then sort ask levels by increasing and bid levels by decreasing price
(the source's `sort.Slice` comparators). -/
def GetOrderBookSnapshot (ob : OrderBook) : OrderBookSnapshot :=
  { asks := List.insertionSort (fun a b => a.price ≤ b.price) (aggregateLevels ob.asks)
    bids := List.insertionSort (fun a b => b.price ≤ a.price) (aggregateLevels ob.bids) }

/-- The orders of `orders` resting at price `p`. -/
def priceFilter (orders : List Order) (p : Rat) : List Order :=
  orders.filter (fun x => decide (x.price = p))

/-- Correctness bundle for a level list against the orders it aggregates:
one level per distinct present price, holding that price's summed amount and
order count. -/
def LevelsOK (orders : List Order) (levels : List OrderBookLevel) : Prop :=
  (levels.map (·.price)).Nodup ∧
  (∀ p : Rat, p ∈ levels.map (·.price) ↔ p ∈ orders.map (·.price)) ∧
  (∀ lv ∈ levels,
    lv.totalAmount = ((priceFilter orders lv.price).map (·.amount)).sum ∧
    lv.orderCount = (priceFilter orders lv.price).length)

theorem priceFilter_append_one (processed : List Order) (o : Order) (q : Rat) :
    priceFilter (processed ++ [o]) q =
      priceFilter processed q ++ (if o.price = q then [o] else []) := by
  unfold priceFilter
  rw [List.filter_append]
  congr 1
  by_cases h : o.price = q
  · simp [h]
  · simp [h]

theorem addToLevels_ok (processed : List Order) (levels : List OrderBookLevel) (o : Order)
    (h : LevelsOK processed levels) : LevelsOK (processed ++ [o]) (addToLevels levels o) := by
  obtain ⟨hnodup, hmem, hlv⟩ := h
  unfold addToLevels
  by_cases hany : levels.any (fun lv => decide (lv.price = o.price)) = true
  · rw [if_pos hany]
    obtain ⟨lv0, hlv0mem, hlv0p⟩ : ∃ lv ∈ levels, lv.price = o.price := by
      obtain ⟨lv0, hm, hp⟩ := List.any_eq_true.mp hany
      exact ⟨lv0, hm, of_decide_eq_true hp⟩
    have hop : o.price ∈ levels.map (·.price) := by
      exact List.mem_map.mpr ⟨lv0, hlv0mem, hlv0p⟩
    have hprices : (levels.map (fun lv =>
        if lv.price = o.price then
          { lv with totalAmount := lv.totalAmount + o.amount, orderCount := lv.orderCount + 1 }
        else lv)).map (·.price) = levels.map (·.price) := by
      rw [List.map_map]
      apply List.map_congr_left
      intro lv _
      by_cases hp : lv.price = o.price
      · simp [hp]
      · simp [hp]
    refine ⟨by rw [hprices]; exact hnodup, ?_, ?_⟩
    · intro p
      rw [hprices, List.map_append]
      simp only [List.mem_append, List.map_cons, List.map_nil, List.mem_singleton]
      constructor
      · intro hp
        exact Or.inl ((hmem p).mp hp)
      · intro hp
        rcases hp with hp | hp
        · exact (hmem p).mpr hp
        · rw [hp]
          exact hop
    · intro lv' hlv'
      obtain ⟨lv, hlvmem, hlveq⟩ := List.mem_map.mp hlv'
      by_cases hp : lv.price = o.price
      · rw [if_pos hp] at hlveq
        obtain ⟨hsum, hcount⟩ := hlv lv hlvmem
        subst hlveq
        have hq : (OrderBookLevel.mk lv.price (lv.totalAmount + o.amount) (lv.orderCount + 1)).price = lv.price := rfl
        show (OrderBookLevel.mk lv.price (lv.totalAmount + o.amount) (lv.orderCount + 1)).totalAmount = _ ∧
          (OrderBookLevel.mk lv.price (lv.totalAmount + o.amount) (lv.orderCount + 1)).orderCount = _
        rw [hq, priceFilter_append_one, if_pos (by rw [hp])]
        constructor
        · show lv.totalAmount + o.amount = _
          rw [List.map_append, List.sum_append, hsum]
          simp
        · show lv.orderCount + 1 = _
          rw [List.length_append, hcount]
          simp
      · rw [if_neg hp] at hlveq
        subst hlveq
        obtain ⟨hsum, hcount⟩ := hlv lv hlvmem
        rw [priceFilter_append_one, if_neg (fun hc => hp (by rw [hc]))]
        simp only [List.append_nil]
        exact ⟨hsum, hcount⟩
  · rw [if_neg hany]
    have hnone : ∀ lv ∈ levels, lv.price ≠ o.price := by
      intro lv hm hc
      exact hany (List.any_eq_true.mpr ⟨lv, hm, decide_eq_true hc⟩)
    have hnotin : o.price ∉ levels.map (·.price) := by
      intro hc
      obtain ⟨lv, hm, hp⟩ := List.mem_map.mp hc
      exact hnone lv hm hp
    have hnotproc : o.price ∉ processed.map (·.price) := fun hc => hnotin ((hmem _).mpr hc)
    have hfilterproc : priceFilter processed o.price = [] := by
      unfold priceFilter
      rw [List.filter_eq_nil_iff]
      intro x hx
      intro hc
      exact hnotproc (List.mem_map.mpr ⟨x, hx, of_decide_eq_true hc⟩)
    refine ⟨?_, ?_, ?_⟩
    · rw [List.map_append]
      simp only [List.map_cons, List.map_nil]
      rw [List.nodup_append]
      refine ⟨hnodup, List.nodup_singleton _, ?_⟩
      intro p hp hq
      rw [List.mem_singleton] at hq
      subst hq
      exact hnotin hp
    · intro p
      rw [List.map_append, List.map_append]
      simp only [List.map_cons, List.map_nil, List.mem_append, List.mem_singleton]
      constructor
      · intro hp
        rcases hp with hp | hp
        · exact Or.inl ((hmem p).mp hp)
        · exact Or.inr hp
      · intro hp
        rcases hp with hp | hp
        · exact Or.inl ((hmem p).mpr hp)
        · exact Or.inr hp
    · intro lv hlvmem
      rw [List.mem_append, List.mem_singleton] at hlvmem
      rcases hlvmem with hm | hm
      · obtain ⟨hsum, hcount⟩ := hlv lv hm
        rw [priceFilter_append_one, if_neg (fun hc => hnone lv hm (by rw [hc]))]
        simp only [List.append_nil]
        exact ⟨hsum, hcount⟩
      · subst hm
        show o.amount = ((priceFilter (processed ++ [o]) o.price).map (·.amount)).sum ∧
          1 = (priceFilter (processed ++ [o]) o.price).length
        rw [priceFilter_append_one, if_pos rfl, hfilterproc]
        simp

theorem foldl_levels_ok :
    ∀ (rest processed : List Order) (levels : List OrderBookLevel),
      LevelsOK processed levels →
      LevelsOK (processed ++ rest) (rest.foldl addToLevels levels) := by
  intro rest
  induction rest with
  | nil =>
    intro processed levels h
    simpa using h
  | cons o rest' ih =>
    intro processed levels h
    have h1 := addToLevels_ok processed levels o h
    have h2 := ih (processed ++ [o]) (addToLevels levels o) h1
    rw [List.append_assoc] at h2
    simpa using h2

theorem aggregateLevels_ok (orders : List Order) : LevelsOK orders (aggregateLevels orders) := by
  have h := foldl_levels_ok orders [] []
    ⟨List.nodup_nil, fun p => by simp, fun lv hlv => absurd hlv (List.not_mem_nil lv)⟩
  simpa [aggregateLevels] using h

theorem levelsOK_of_perm (orders : List Order) (l1 l2 : List OrderBookLevel)
    (hperm : List.Perm l1 l2) (h : LevelsOK orders l1) : LevelsOK orders l2 := by
  obtain ⟨hnodup, hmem, hlv⟩ := h
  refine ⟨(hperm.map (·.price)).nodup_iff.mp hnodup, ?_, ?_⟩
  · intro p
    rw [← (hperm.map (·.price)).mem_iff]
    exact hmem p
  · intro lv hm
    exact hlv lv (hperm.mem_iff.mpr hm)

instance : IsTotal OrderBookLevel (fun a b => a.price ≤ b.price) :=
  ⟨fun a b => le_total a.price b.price⟩

instance : IsTrans OrderBookLevel (fun a b => a.price ≤ b.price) :=
  ⟨fun _ _ _ h1 h2 => le_trans h1 h2⟩

instance : IsTotal OrderBookLevel (fun a b => b.price ≤ a.price) :=
  ⟨fun a b => le_total b.price a.price⟩

instance : IsTrans OrderBookLevel (fun a b => b.price ≤ a.price) :=
  ⟨fun _ _ _ h1 h2 => le_trans h2 h1⟩

theorem pairwise_lt_of_nodup_le (L : List OrderBookLevel)
    (hs : L.Pairwise (fun a b => a.price ≤ b.price)) (hn : (L.map (·.price)).Nodup) :
    L.Pairwise (fun a b => a.price < b.price) := by
  have hne : L.Pairwise (fun a b => a.price ≠ b.price) := List.pairwise_map.mp hn
  exact (hs.and hne).imp (fun h => lt_of_le_of_ne h.1 h.2)

theorem pairwise_gt_of_nodup_ge (L : List OrderBookLevel)
    (hs : L.Pairwise (fun a b => b.price ≤ a.price)) (hn : (L.map (·.price)).Nodup) :
    L.Pairwise (fun a b => b.price < a.price) := by
  have hne : L.Pairwise (fun a b => a.price ≠ b.price) := List.pairwise_map.mp hn
  exact (hs.and hne).imp (fun h => lt_of_le_of_ne h.1 (Ne.symm h.2))

/-- C8: the snapshot has exactly one level per distinct price present on each
side (level prices are pairwise distinct and are exactly the side's resident
prices), each level's total amount is the sum of that side's resident
amounts at its price and its order count their number, ask levels are in
strictly ascending and bid levels in strictly descending price order. -/
theorem C8_snapshot_spec (ob : OrderBook) :
    ((GetOrderBookSnapshot ob).asks.map (·.price)).Nodup ∧
    (∀ p : Rat, p ∈ (GetOrderBookSnapshot ob).asks.map (·.price) ↔
      p ∈ ob.asks.map (·.price)) ∧
    (∀ lv ∈ (GetOrderBookSnapshot ob).asks,
      lv.totalAmount = ((priceFilter ob.asks lv.price).map (·.amount)).sum ∧
      lv.orderCount = (priceFilter ob.asks lv.price).length) ∧
    (GetOrderBookSnapshot ob).asks.Pairwise (fun a b => a.price < b.price) ∧
    ((GetOrderBookSnapshot ob).bids.map (·.price)).Nodup ∧
    (∀ p : Rat, p ∈ (GetOrderBookSnapshot ob).bids.map (·.price) ↔
      p ∈ ob.bids.map (·.price)) ∧
    (∀ lv ∈ (GetOrderBookSnapshot ob).bids,
      lv.totalAmount = ((priceFilter ob.bids lv.price).map (·.amount)).sum ∧
      lv.orderCount = (priceFilter ob.bids lv.price).length) ∧
    (GetOrderBookSnapshot ob).bids.Pairwise (fun a b => b.price < a.price) := by
  have haperm : List.Perm (aggregateLevels ob.asks) (GetOrderBookSnapshot ob).asks := by
    have h := List.perm_insertionSort (fun a b : OrderBookLevel => a.price ≤ b.price)
      (aggregateLevels ob.asks)
    exact h.symm
  have hbperm : List.Perm (aggregateLevels ob.bids) (GetOrderBookSnapshot ob).bids := by
    have h := List.perm_insertionSort (fun a b : OrderBookLevel => b.price ≤ a.price)
      (aggregateLevels ob.bids)
    exact h.symm
  have hasort : (GetOrderBookSnapshot ob).asks.Pairwise (fun a b => a.price ≤ b.price) := by
    have h := List.sorted_insertionSort (fun a b : OrderBookLevel => a.price ≤ b.price)
      (aggregateLevels ob.asks)
    exact h
  have hbsort : (GetOrderBookSnapshot ob).bids.Pairwise (fun a b => b.price ≤ a.price) := by
    have h := List.sorted_insertionSort (fun a b : OrderBookLevel => b.price ≤ a.price)
      (aggregateLevels ob.bids)
    exact h
  obtain ⟨han, ham, halv⟩ :=
    levelsOK_of_perm ob.asks (aggregateLevels ob.asks) (GetOrderBookSnapshot ob).asks
      haperm (aggregateLevels_ok ob.asks)
  obtain ⟨hbn, hbm, hblv⟩ :=
    levelsOK_of_perm ob.bids (aggregateLevels ob.bids) (GetOrderBookSnapshot ob).bids
      hbperm (aggregateLevels_ok ob.bids)
  refine ⟨han, ham, halv, ?_, hbn, hbm, hblv, ?_⟩
  · exact pairwise_lt_of_nodup_le _ hasort han
  · exact pairwise_gt_of_nodup_ge _ hbsort hbn

/-- An acquire or release of the book's exclusive mutex. -/
inductive LockEvent where
  | lock
  | unlock
  deriving Repr, DecidableEq

/-- Mutex events of one `PlaceOrder` call of the first variant:
`ob.mu.Lock()` on entry and the deferred `ob.mu.Unlock()` on return. -/
def PlaceOrderLockTrace : List LockEvent := [LockEvent.lock, LockEvent.unlock]

/-- Mutex events of one `ProcessOrder` call of the first variant, in program
order: `ob.mu.Lock()` on entry; then, exactly when the matching loop ends
with a positive remaining amount, the source runs `ob.mu.Unlock()`, calls
`ob.PlaceOrder(newOrder)` (which locks and unlocks on its own), and runs
`ob.mu.Lock()` again; finally the deferred `ob.mu.Unlock()`. An invalid side
returns after only the entry lock and the deferred unlock. -/
def ProcessOrderLockTrace (ob : OrderBook) (order : Order) : List LockEvent :=
  if order.side = Buy ∨ order.side = Sell then
    let opp := if order.side = Buy then ob.asks else ob.bids
    if 0 < (matchLoop order order.amount opp).2.1 then
      [LockEvent.lock, LockEvent.unlock] ++ PlaceOrderLockTrace ++
        [LockEvent.lock, LockEvent.unlock]
    else [LockEvent.lock, LockEvent.unlock]
  else [LockEvent.lock, LockEvent.unlock]

/-- C9 evidence: a Buy of amount 1 at price 100 against the empty book ends
the matching loop with the full positive remainder, which `ProcessOrder`
does deposit (`bids` is non-empty afterwards) — yet the call's mutex trace
releases the lock after matching and re-acquires it around the deposit
(six events instead of the two of a single continuous critical section),
contradicting the claim that the remainder is placed under the same
uninterrupted exclusive hold. -/
theorem C9_lock_release :
    0 < (matchLoop (Order.mk "r1" 100 1 Buy) (Order.mk "r1" 100 1 Buy).amount
        NewOrderBook.asks).2.1 ∧
    (NewOrderBook.ProcessOrder (Order.mk "r1" 100 1 Buy)).2.1.bids ≠ [] ∧
    ProcessOrderLockTrace NewOrderBook (Order.mk "r1" 100 1 Buy) =
      [LockEvent.lock, LockEvent.unlock, LockEvent.lock, LockEvent.unlock,
        LockEvent.lock, LockEvent.unlock] ∧
    ProcessOrderLockTrace NewOrderBook (Order.mk "r1" 100 1 Buy) ≠
      [LockEvent.lock, LockEvent.unlock] := by
  refine ⟨by decide, ?_, by decide, by decide⟩
  decide

/-- C8 witness: the aggregation facts of the theorem applied to a concrete
two-ask book with distinct prices, with the level-membership hypothesis
discharged on the computed snapshot. -/
theorem C8_snapshot_spec_witness :
    OrderBookLevel.mk 100 2 1 ∈
      (GetOrderBookSnapshot (OrderBook.mk []
        [Order.mk "a1" 101 1 Sell, Order.mk "a2" 100 2 Sell])).asks ∧
    ((OrderBookLevel.mk (100:Rat) 2 1).totalAmount =
      ((priceFilter [Order.mk "a1" 101 1 Sell, Order.mk "a2" 100 2 Sell]
        (OrderBookLevel.mk (100:Rat) 2 1).price).map (·.amount)).sum ∧
    (OrderBookLevel.mk (100:Rat) 2 1).orderCount =
      (priceFilter [Order.mk "a1" 101 1 Sell, Order.mk "a2" 100 2 Sell]
        (OrderBookLevel.mk (100:Rat) 2 1).price).length) :=
  ⟨by decide,
    (C8_snapshot_spec (OrderBook.mk []
      [Order.mk "a1" 101 1 Sell, Order.mk "a2" 100 2 Sell])).2.2.1
      (OrderBookLevel.mk 100 2 1) (by decide)⟩

end Orderbook
